import Mathlib

/-!
# Verification of the ML-DSA (FIPS 204) implementation

Shallow embedding of the Go ML-DSA implementation (field arithmetic in
Montgomery form, NTT, compression/hints, samplers, codecs, and the
ML-DSA-44 verification pipeline), together with theorems settling the
specification claims.

Machine integers are modelled as `Nat` (or `Int` for the signed `int32`
values of the compression routines), with wraparound made explicit as
`% 2^32` where the Go code relies on `uint32` overflow.  Polynomials are
modelled as `Nat → Nat` (index `i < 256` relevant) or as `List Nat`
where the Go code manipulates byte slices.
-/

/-! ## Global constants (mldsa.go, field.go) -/

def q : Nat := 8380417

def qNegInv : Nat := 4236238847

def montR : Nat := 4193792

def montR2 : Nat := 2365951

def invN : Nat := 41978

def qMinus1Div2 : Nat := (q - 1) / 2

def gamma2QMinus1Div88 : Nat := (q - 1) / 88

def gamma2QMinus1Div32 : Nat := (q - 1) / 32

/-- Inverse of the Montgomery constant `R = 2^32` modulo `q` (not a
source constant; used only in the mathematical model). -/
def rInvNat : Nat := 8265825

/-! ## Field arithmetic (source: `fieldReduceOnce`, `fieldAdd`,
`fieldSub`, `fieldReduce`, `fieldMul`).

`uint32` subtraction `a - q` is embedded as `(a + 2^32 - q) % 2^32`; the
test `x >> 31` of the borrow bit is `x >>> 31`. -/

def fieldReduceOnce (a : Nat) : Nat :=
  let x := (a + 2 ^ 32 - q) % 2 ^ 32
  (x + (x >>> 31) * q) % 2 ^ 32

def fieldAdd (a b : Nat) : Nat := fieldReduceOnce ((a + b) % 2 ^ 32)

def fieldSub (a b : Nat) : Nat :=
  fieldReduceOnce ((a + 2 ^ 32 - b + q) % 2 ^ 32)

def fieldReduce (a : Nat) : Nat :=
  let t := a % 2 ^ 32 * qNegInv % 2 ^ 32
  fieldReduceOnce ((a + t * q) / 2 ^ 32)

def fieldMul (a b : Nat) : Nat := fieldReduce (a * b)

theorem fieldReduceOnce_eq (a : Nat) (h : a < 2 * q) :
    fieldReduceOnce a = a % q := by
  simp only [fieldReduceOnce, Nat.shiftRight_eq_div_pow, q] at h ⊢
  rcases Nat.lt_or_ge a 8380417 with h1 | h1
  · omega
  · omega

theorem fieldAdd_eq (a b : Nat) (ha : a < q) (hb : b < q) :
    fieldAdd a b = (a + b) % q := by
  have h : (a + b) % 2 ^ 32 = a + b := by
    apply Nat.mod_eq_of_lt; simp only [q] at ha hb; omega
  rw [fieldAdd, h, fieldReduceOnce_eq _ (by omega)]

theorem fieldSub_eq (a b : Nat) (ha : a < q) (hb : b < q) :
    fieldSub a b = (a + q - b) % q := by
  have h : (a + 2 ^ 32 - b + q) % 2 ^ 32 = a + q - b := by
    simp only [q] at ha hb ⊢; omega
  rw [fieldSub, h, fieldReduceOnce_eq _ (by simp only [q] at *; omega)]

theorem fieldAdd_lt (a b : Nat) (ha : a < q) (hb : b < q) :
    fieldAdd a b < q := by
  rw [fieldAdd_eq a b ha hb]; exact Nat.mod_lt _ (by simp [q])

theorem fieldSub_lt (a b : Nat) (ha : a < q) (hb : b < q) :
    fieldSub a b < q := by
  rw [fieldSub_eq a b ha hb]; exact Nat.mod_lt _ (by simp [q])

theorem fieldReduce_ok (x : Nat) (h : x < q * 2 ^ 32) :
    fieldReduce x < q ∧ fieldReduce x * 2 ^ 32 % q = x % q := by
  have h1 : (x + x % 2 ^ 32 * qNegInv % 2 ^ 32 * q) % 2 ^ 32 = 0 := by
    simp only [q, qNegInv]; omega
  have h2 : (x + x % 2 ^ 32 * qNegInv % 2 ^ 32 * q) / 2 ^ 32 < 2 * q := by
    simp only [q, qNegInv] at *; omega
  have h3 : fieldReduce x =
      (x + x % 2 ^ 32 * qNegInv % 2 ^ 32 * q) / 2 ^ 32 % q := by
    simp only [fieldReduce]
    exact fieldReduceOnce_eq _ h2
  rw [h3]
  refine ⟨Nat.mod_lt _ (by simp [q]), ?_⟩
  simp only [q, qNegInv] at *
  omega

theorem fieldMul_ok (a b : Nat) (ha : a < q) (hb : b < q) :
    fieldMul a b < q ∧ fieldMul a b * 2 ^ 32 % q = a * b % q := by
  have h : a * b < q * 2 ^ 32 := by
    calc a * b < q * q := by
          apply Nat.mul_lt_mul_of_lt_of_le ha (Nat.le_of_lt hb)
          simp [q]
    _ ≤ q * 2 ^ 32 := by
          apply Nat.mul_le_mul_left
          simp [q]
  exact fieldReduce_ok (a * b) h

/-- C4: for every 64-bit `x < q·2^32`, Montgomery reduction `fieldReduce x`
lies in `[0, q)` and satisfies `fieldReduce x · 2^32 ≡ x (mod q)` (that is,
`fieldReduce x ≡ x · 2^(−32)`); consequently for `a, b ∈ [0, q)`,
`fieldMul a b` lies in `[0, q)` and `fieldMul a b · 2^32 ≡ a·b (mod q)`
(that is, `fieldMul a b ≡ a·b·R^(−1)` with `R = 2^32`). -/
theorem claim_C4 :
    (∀ x : Nat, x < q * 2 ^ 32 →
      fieldReduce x < q ∧ fieldReduce x * 2 ^ 32 % q = x % q) ∧
    (∀ a b : Nat, a < q → b < q →
      fieldMul a b < q ∧ fieldMul a b * 2 ^ 32 % q = a * b % q) :=
  ⟨fieldReduce_ok, fieldMul_ok⟩

/-- Witness for C4 at `x = 2^40 + 7`, `a = 123456`, `b = 654321`. -/
theorem claim_C4_witness :
    (2 ^ 40 + 7 < q * 2 ^ 32 ∧
      (fieldReduce (2 ^ 40 + 7) < q ∧
        fieldReduce (2 ^ 40 + 7) * 2 ^ 32 % q = (2 ^ 40 + 7) % q)) ∧
    (123456 < q ∧ 654321 < q ∧
      (fieldMul 123456 654321 < q ∧
        fieldMul 123456 654321 * 2 ^ 32 % q = 123456 * 654321 % q)) :=
  ⟨⟨by decide, claim_C4.1 _ (by decide)⟩,
   ⟨by decide, by decide, claim_C4.2 _ _ (by decide) (by decide)⟩⟩

/-! ## Casting the field operations into `ZMod q` (the mathematical model
used to reason about the NTT). -/

def rInvZ : ZMod q := (rInvNat : ZMod q)

theorem rInvZ_mul_R : (2 ^ 32 : ZMod q) * rInvZ = 1 := by
  simp only [rInvZ, rInvNat, q]
  decide

/-- Montgomery product in the mathematical model: `a·b·R⁻¹`. -/
def mmul (a b : ZMod q) : ZMod q := a * b * rInvZ

theorem fieldAdd_cast (a b : Nat) (ha : a < q) (hb : b < q) :
    ((fieldAdd a b : Nat) : ZMod q) = (a : ZMod q) + (b : ZMod q) := by
  rw [fieldAdd_eq a b ha hb, ZMod.natCast_mod]
  push_cast
  ring_nf

theorem fieldSub_cast (a b : Nat) (ha : a < q) (hb : b < q) :
    ((fieldSub a b : Nat) : ZMod q) = (a : ZMod q) - (b : ZMod q) := by
  rw [fieldSub_eq a b ha hb, ZMod.natCast_mod]
  have h : a + q - b = a + (q - b) := by omega
  rw [h]
  push_cast [Nat.le_of_lt hb]
  rw [ZMod.natCast_self]
  ring

theorem fieldMul_cast (a b : Nat) (ha : a < q) (hb : b < q) :
    ((fieldMul a b : Nat) : ZMod q) = mmul (a : ZMod q) (b : ZMod q) := by
  have h := (fieldMul_ok a b ha hb).2
  have hc : ((fieldMul a b * 2 ^ 32 : Nat) : ZMod q) = ((a * b : Nat) : ZMod q) := by
    rw [← ZMod.natCast_mod (fieldMul a b * 2 ^ 32) q, ← ZMod.natCast_mod (a * b) q, h]
  push_cast at hc
  have := congrArg (· * rInvZ) hc
  simp only at this
  have h32 : (4294967296 : ZMod q) = (2 ^ 32 : ZMod q) := by norm_num
  rw [h32] at this
  calc ((fieldMul a b : Nat) : ZMod q)
      = ((fieldMul a b : Nat) : ZMod q) * ((2 ^ 32 : ZMod q) * rInvZ) := by
        rw [rInvZ_mul_R, mul_one]
    _ = (a : ZMod q) * (b : ZMod q) * rInvZ := by rw [← mul_assoc, this]
    _ = mmul (a : ZMod q) (b : ZMod q) := rfl

/-! ## The NTT (source: `zetas`, `ntt`, `invNTT`, `nttMul`).

The Go routines update the coefficient array in place; within one layer
the butterflies touch pairwise-disjoint index pairs and read only values
from before the layer, so a layer is embedded as a parallel index map.
In the Go loops the zeta counter `k` advances once per block: in `ntt`
the layer with halved block size `length` starts at `k = 128/length` and
block `b` uses `zetas[128/length + b]`; in `invNTT` the layer with
`length` starts at `k = 2*(128/length) - 1` counting down, so block `b`
uses `zetas[2*(128/length) - 1 - b]`.  Polynomials are `Nat → Nat`; only
indices `< 256` are relevant. -/

def zetasList : List Nat := [
  4193792, 25847, 5771523, 7861508, 237124, 7602457, 7504169, 466468,
  1826347, 2353451, 8021166, 6288512, 3119733, 5495562, 3111497, 2680103,
  2725464, 1024112, 7300517, 3585928, 7830929, 7260833, 2619752, 6271868,
  6262231, 4520680, 6980856, 5102745, 1757237, 8360995, 4010497, 280005,
  2706023, 95776, 3077325, 3530437, 6718724, 4788269, 5842901, 3915439,
  4519302, 5336701, 3574422, 5512770, 3539968, 8079950, 2348700, 7841118,
  6681150, 6736599, 3505694, 4558682, 3507263, 6239768, 6779997, 3699596,
  811944, 531354, 954230, 3881043, 3900724, 5823537, 2071892, 5582638,
  4450022, 6851714, 4702672, 5339162, 6927966, 3475950, 2176455, 6795196,
  7122806, 1939314, 4296819, 7380215, 5190273, 5223087, 4747489, 126922,
  3412210, 7396998, 2147896, 2715295, 5412772, 4686924, 7969390, 5903370,
  7709315, 7151892, 8357436, 7072248, 7998430, 1349076, 1852771, 6949987,
  5037034, 264944, 508951, 3097992, 44288, 7280319, 904516, 3958618,
  4656075, 8371839, 1653064, 5130689, 2389356, 8169440, 759969, 7063561,
  189548, 4827145, 3159746, 6529015, 5971092, 8202977, 1315589, 1341330,
  1285669, 6795489, 7567685, 6940675, 5361315, 4499357, 4751448, 3839961,
  2091667, 3407706, 2316500, 3817976, 5037939, 2244091, 5933984, 4817955,
  266997, 2434439, 7144689, 3513181, 4860065, 4621053, 7183191, 5187039,
  900702, 1859098, 909542, 819034, 495491, 6767243, 8337157, 7857917,
  7725090, 5257975, 2031748, 3207046, 4823422, 7855319, 7611795, 4784579,
  342297, 286988, 5942594, 4108315, 3437287, 5038140, 1735879, 203044,
  2842341, 2691481, 5790267, 1265009, 4055324, 1247620, 2486353, 1595974,
  4613401, 1250494, 2635921, 4832145, 5386378, 1869119, 1903435, 7329447,
  7047359, 1237275, 5062207, 6950192, 7929317, 1312455, 3306115, 6417775,
  7100756, 1917081, 5834105, 7005614, 1500165, 777191, 2235880, 3406031,
  7838005, 5548557, 6709241, 6533464, 5796124, 4656147, 594136, 4603424,
  6366809, 2432395, 2454455, 8215696, 1957272, 3369112, 185531, 7173032,
  5196991, 162844, 1616392, 3014001, 810149, 1652634, 4686184, 6581310,
  5341501, 3523897, 3866901, 269760, 2213111, 7404533, 1717735, 472078,
  7953734, 1723600, 6577327, 1910376, 6712985, 7276084, 8119771, 4546524,
  5441381, 6144432, 7959518, 6094090, 183443, 7403526, 1612842, 4834730,
  7826001, 3919660, 8332111, 7018208, 3937738, 1400424, 7534263, 1976782]

def zeta (k : Nat) : Nat := zetasList.getD k 0

set_option maxRecDepth 4000 in
theorem zetasList_all_lt : ∀ x ∈ zetasList, x < q := by decide

theorem zeta_lt (k : Nat) : zeta k < q := by
  rcases h : zetasList[k]? with _ | a
  · simp [zeta, List.getD, List.get?_eq_getElem?, h, q]
  · have hm : a ∈ zetasList := List.getElem?_mem h
    simp only [zeta, List.getD, List.get?_eq_getElem?, h, Option.getD_some]
    exact zetasList_all_lt a hm

set_option maxRecDepth 4000 in
theorem zetasList_all_pos : ∀ x ∈ zetasList, 0 < x := by decide

set_option maxRecDepth 4000 in
theorem zetasList_length : zetasList.length = 256 := by rfl

theorem zeta_pos (k : Nat) (hk : k < 256) : 0 < zeta k := by
  rcases h : zetasList[k]? with _ | a
  · rw [List.getElem?_eq_none_iff, zetasList_length] at h
    omega
  · have := zetasList_all_pos a (List.getElem?_mem h)
    simp only [zeta, List.getD, List.get?_eq_getElem?, h, Option.getD_some]
    exact this

/-- One forward (Cooley–Tukey) layer: block size `2*len`, zeta base
`kbase = 128/len`.  `t := fieldMul zeta fHi[j]`, `fHi[j] := fLo[j] - t`,
`fLo[j] := fLo[j] + t`. -/
def nttLayer (len kbase : Nat) (f : Nat → Nat) : Nat → Nat := fun i =>
  let b := i / (2 * len)
  let j := i % (2 * len)
  if j < len then fieldAdd (f i) (fieldMul (zeta (kbase + b)) (f (i + len)))
  else fieldSub (f (i - len)) (fieldMul (zeta (kbase + b)) (f i))

def ntt (f : Nat → Nat) : Nat → Nat :=
  nttLayer 1 128 (nttLayer 2 64 (nttLayer 4 32 (nttLayer 8 16
    (nttLayer 16 8 (nttLayer 32 4 (nttLayer 64 2 (nttLayer 128 1 f)))))))

/-- One inverse (Gentleman–Sande) layer: block size `2*len`, zeta top
index `ktop = 2*(128/len) - 1`, multiplier `q - zetas[k]`.
`t := fLo[j]`, `fLo[j] := t + fHi[j]`,
`fHi[j] := fieldMul (q - zeta) (t - fHi[j])`. -/
def invLayer (len ktop : Nat) (f : Nat → Nat) : Nat → Nat := fun i =>
  let b := i / (2 * len)
  let j := i % (2 * len)
  if j < len then fieldAdd (f i) (f (i + len))
  else fieldMul (q - zeta (ktop - b)) (fieldSub (f (i - len)) (f i))

def invNTT (f : Nat → Nat) : Nat → Nat := fun i =>
  fieldMul
    (invLayer 128 1 (invLayer 64 3 (invLayer 32 7 (invLayer 16 15
      (invLayer 8 31 (invLayer 4 63 (invLayer 2 127 (invLayer 1 255 f))))))) i)
    invN

def nttMul (a b : Nat → Nat) : Nat → Nat := fun i => fieldMul (a i) (b i)

def polyAdd (a b : Nat → Nat) : Nat → Nat := fun i => fieldAdd (a i) (b i)

def polySub (a b : Nat → Nat) : Nat → Nat := fun i => fieldSub (a i) (b i)

/-! ## Mathematical model of the NTT layers over `ZMod q` -/

def mLayerF (len kbase : Nat) (g : Nat → ZMod q) : Nat → ZMod q := fun i =>
  let b := i / (2 * len)
  let j := i % (2 * len)
  if j < len then g i + mmul ((zeta (kbase + b) : Nat) : ZMod q) (g (i + len))
  else g (i - len) - mmul ((zeta (kbase + b) : Nat) : ZMod q) (g i)

def mLayerI (len ktop : Nat) (g : Nat → ZMod q) : Nat → ZMod q := fun i =>
  let b := i / (2 * len)
  let j := i % (2 * len)
  if j < len then g i + g (i + len)
  else mmul (((q - zeta (ktop - b) : Nat)) : ZMod q) (g (i - len) - g i)

/-- Pointwise correspondence on the 256 relevant indices between an
embedded (canonical-`Nat`) polynomial and its `ZMod q` model. -/
def Corr (f : Nat → Nat) (g : Nat → ZMod q) : Prop :=
  ∀ i, i < 256 → f i < q ∧ (f i : ZMod q) = g i

def LenOK (len : Nat) : Prop :=
  len = 1 ∨ len = 2 ∨ len = 4 ∨ len = 8 ∨
  len = 16 ∨ len = 32 ∨ len = 64 ∨ len = 128

theorem lenOK_lo {len i : Nat} (hlen : LenOK len) (hi : i < 256)
    (hj : i % (2 * len) < len) : i + len < 256 := by
  rcases hlen with rfl | rfl | rfl | rfl | rfl | rfl | rfl | rfl <;> omega

theorem lenOK_hi {len i : Nat} (hlen : LenOK len) (hi : i < 256)
    (hj : ¬ i % (2 * len) < len) : len ≤ i := by
  rcases hlen with rfl | rfl | rfl | rfl | rfl | rfl | rfl | rfl <;> omega

theorem nttLayer_corr (len kbase : Nat) (hlen : LenOK len)
    (f : Nat → Nat) (g : Nat → ZMod q) (h : Corr f g) :
    Corr (nttLayer len kbase f) (mLayerF len kbase g) := by
  intro i hi
  by_cases hj : i % (2 * len) < len
  · have hil : i + len < 256 := lenOK_lo hlen hi hj
    obtain ⟨hf1, hc1⟩ := h i hi
    obtain ⟨hf2, hc2⟩ := h (i + len) hil
    have hm := fieldMul_ok (zeta (kbase + i / (2 * len))) (f (i + len))
      (zeta_lt _) hf2
    simp only [nttLayer, mLayerF, if_pos hj]
    refine ⟨fieldAdd_lt _ _ hf1 hm.1, ?_⟩
    rw [fieldAdd_cast _ _ hf1 hm.1,
      fieldMul_cast _ _ (zeta_lt _) hf2, hc1, hc2]
  · have hge : len ≤ i := lenOK_hi hlen hi hj
    obtain ⟨hf1, hc1⟩ := h (i - len) (by omega)
    obtain ⟨hf2, hc2⟩ := h i hi
    have hm := fieldMul_ok (zeta (kbase + i / (2 * len))) (f i)
      (zeta_lt _) hf2
    simp only [nttLayer, mLayerF, if_neg hj]
    refine ⟨fieldSub_lt _ _ hf1 hm.1, ?_⟩
    rw [fieldSub_cast _ _ hf1 hm.1,
      fieldMul_cast _ _ (zeta_lt _) hf2, hc1, hc2]

theorem invLayer_corr (len ktop : Nat) (hlen : LenOK len) (hktop : ktop ≤ 255)
    (f : Nat → Nat) (g : Nat → ZMod q) (h : Corr f g) :
    Corr (invLayer len ktop f) (mLayerI len ktop g) := by
  intro i hi
  by_cases hj : i % (2 * len) < len
  · have hil : i + len < 256 := lenOK_lo hlen hi hj
    obtain ⟨hf1, hc1⟩ := h i hi
    obtain ⟨hf2, hc2⟩ := h (i + len) hil
    simp only [invLayer, mLayerI, if_pos hj]
    refine ⟨fieldAdd_lt _ _ hf1 hf2, ?_⟩
    rw [fieldAdd_cast _ _ hf1 hf2, hc1, hc2]
  · have hge : len ≤ i := lenOK_hi hlen hi hj
    obtain ⟨hf1, hc1⟩ := h (i - len) (by omega)
    obtain ⟨hf2, hc2⟩ := h i hi
    have hzq : q - zeta (ktop - i / (2 * len)) < q := by
      have h1 := zeta_lt (ktop - i / (2 * len))
      have h2 := zeta_pos (ktop - i / (2 * len))
        (by have := Nat.sub_le ktop (i / (2 * len)); omega)
      omega
    have hs := fieldSub_lt (f (i - len)) (f i) hf1 hf2
    have hm := fieldMul_ok _ _ hzq hs
    simp only [invLayer, mLayerI, if_neg hj]
    refine ⟨hm.1, ?_⟩
    rw [fieldMul_cast _ _ hzq hs, fieldSub_cast _ _ hf1 hf2, hc1, hc2]

/-! ## Layer-pair cancellation: an inverse layer undoes the matching
forward layer up to a factor 2.  The zeta identity below pairs the
forward twiddle `zetas[m+b]` with the inverse twiddle `q - zetas[2m-1-b]`. -/

def MOK (m : Nat) : Prop :=
  m = 1 ∨ m = 2 ∨ m = 4 ∨ m = 8 ∨ m = 16 ∨ m = 32 ∨ m = 64 ∨ m = 128

set_option maxRecDepth 20000 in
theorem zeta_pair (m : Nat) (hm : MOK m) :
    ∀ b, b < m → zeta (m + b) * (q - zeta (2 * m - 1 - b)) % q = montR2 := by
  rcases hm with rfl | rfl | rfl | rfl | rfl | rfl | rfl | rfl <;> decide

theorem montR2_rInv2 : ((montR2 : Nat) : ZMod q) * rInvZ * rInvZ = 1 := by
  simp only [montR2, rInvZ, rInvNat, q]
  decide

theorem lenOK_mok {len : Nat} (hlen : LenOK len) : MOK (128 / len) := by
  rcases hlen with rfl | rfl | rfl | rfl | rfl | rfl | rfl | rfl <;>
    simp [MOK]

theorem lenOK_f1 {len i : Nat} (hlen : LenOK len) (hi : i < 256)
    (hj : i % (2 * len) < len) : ¬ (i + len) % (2 * len) < len := by
  rcases hlen with rfl | rfl | rfl | rfl | rfl | rfl | rfl | rfl <;> omega

theorem lenOK_f2 {len i : Nat} (hlen : LenOK len) (hi : i < 256)
    (hj : i % (2 * len) < len) : (i + len) / (2 * len) = i / (2 * len) := by
  rcases hlen with rfl | rfl | rfl | rfl | rfl | rfl | rfl | rfl <;> omega

theorem lenOK_f4 {len i : Nat} (hlen : LenOK len) (hi : i < 256)
    (hj : ¬ i % (2 * len) < len) : (i - len) % (2 * len) < len := by
  rcases hlen with rfl | rfl | rfl | rfl | rfl | rfl | rfl | rfl <;> omega

theorem lenOK_f5 {len i : Nat} (hlen : LenOK len) (hi : i < 256)
    (hj : ¬ i % (2 * len) < len) : (i - len) / (2 * len) = i / (2 * len) := by
  rcases hlen with rfl | rfl | rfl | rfl | rfl | rfl | rfl | rfl <;> omega

theorem lenOK_f7 {len i : Nat} (hlen : LenOK len) (hi : i < 256) :
    i / (2 * len) < 128 / len := by
  rcases hlen with rfl | rfl | rfl | rfl | rfl | rfl | rfl | rfl <;> omega

theorem pair_cancel (len : Nat) (hlen : LenOK len) (g : Nat → ZMod q) :
    ∀ i, i < 256 →
      mLayerI len (2 * (128 / len) - 1) (mLayerF len (128 / len) g) i =
        2 * g i := by
  intro i hi
  by_cases hj : i % (2 * len) < len
  · have hj2 := lenOK_f1 hlen hi hj
    have e2 := lenOK_f2 hlen hi hj
    have e3 : i + len - len = i := by omega
    simp only [mLayerI, mLayerF, if_pos hj, if_neg hj2, e2, e3, mmul]
    ring
  · have hj4 := lenOK_f4 hlen hi hj
    have e5 := lenOK_f5 hlen hi hj
    have hgeL : len ≤ i := lenOK_hi hlen hi hj
    have e6 : i - len + len = i := by omega
    have hb : i / (2 * len) < 128 / len := lenOK_f7 hlen hi
    have hz := zeta_pair (128 / len) (lenOK_mok hlen) (i / (2 * len)) hb
    have hzlt := zeta_lt (2 * (128 / len) - 1 - i / (2 * len))
    have hAB :
        (((q - zeta (2 * (128 / len) - 1 - i / (2 * len)) : Nat)) : ZMod q) *
          ((zeta (128 / len + i / (2 * len)) : Nat) : ZMod q) =
        ((montR2 : Nat) : ZMod q) := by
      have hcast := congrArg (fun n : Nat => (n : ZMod q)) hz
      simp only at hcast
      rw [ZMod.natCast_mod] at hcast
      push_cast [Nat.le_of_lt hzlt] at hcast ⊢
      rw [ZMod.natCast_self] at hcast ⊢
      linear_combination hcast
    have hABr :
        (((q - zeta (2 * (128 / len) - 1 - i / (2 * len)) : Nat)) : ZMod q) *
          ((zeta (128 / len + i / (2 * len)) : Nat) : ZMod q) *
          rInvZ * rInvZ = 1 := by
      rw [hAB]; exact montR2_rInv2
    simp only [mLayerI, mLayerF, if_neg hj, if_pos hj4, e5, e6, mmul]
    calc (((q - zeta (2 * (128 / len) - 1 - i / (2 * len)) : Nat)) : ZMod q) *
          (g (i - len) + ((zeta (128 / len + i / (2 * len)) : Nat) : ZMod q) *
            g i * rInvZ -
           (g (i - len) - ((zeta (128 / len + i / (2 * len)) : Nat) : ZMod q) *
            g i * rInvZ)) * rInvZ
        = 2 * g i *
          ((((q - zeta (2 * (128 / len) - 1 - i / (2 * len)) : Nat)) : ZMod q) *
            ((zeta (128 / len + i / (2 * len)) : Nat) : ZMod q) *
            rInvZ * rInvZ) := by ring
    _ = 2 * g i := by rw [hABr, mul_one]

theorem mLayerI_smul (len ktop : Nat) (c : ZMod q) (g : Nat → ZMod q) :
    ∀ i, mLayerI len ktop (fun x => c * g x) i = c * mLayerI len ktop g i := by
  intro i
  by_cases hj : i % (2 * len) < len
  · simp only [mLayerI, mmul, if_pos hj]; ring
  · simp only [mLayerI, mmul, if_neg hj]; ring

theorem mLayerI_congr (len ktop : Nat) (hlen : LenOK len)
    (g h : Nat → ZMod q) (hg : ∀ j, j < 256 → g j = h j) :
    ∀ i, i < 256 → mLayerI len ktop g i = mLayerI len ktop h i := by
  intro i hi
  by_cases hj : i % (2 * len) < len
  · simp only [mLayerI, if_pos hj, hg i hi, hg (i + len) (lenOK_lo hlen hi hj)]
  · have hge : len ≤ i := lenOK_hi hlen hi hj
    simp only [mLayerI, if_neg hj, hg i hi, hg (i - len) (by omega)]

theorem peel_step (len : Nat) (hlen : LenOK len) (c : ZMod q)
    (Y W : Nat → ZMod q)
    (hW : ∀ i, i < 256 → W i = c * mLayerF len (128 / len) Y i) :
    ∀ i, i < 256 →
      mLayerI len (2 * (128 / len) - 1) W i = 2 * c * Y i := by
  intro i hi
  have h1 := mLayerI_congr len (2 * (128 / len) - 1) hlen W
    (fun x => c * mLayerF len (128 / len) Y x) hW i hi
  rw [h1, mLayerI_smul, pair_cancel len hlen Y i hi]
  ring

def mNttChain (g : Nat → ZMod q) : Nat → ZMod q :=
  mLayerF 1 128 (mLayerF 2 64 (mLayerF 4 32 (mLayerF 8 16
    (mLayerF 16 8 (mLayerF 32 4 (mLayerF 64 2 (mLayerF 128 1 g)))))))

def mInvChain (g : Nat → ZMod q) : Nat → ZMod q :=
  mLayerI 128 1 (mLayerI 64 3 (mLayerI 32 7 (mLayerI 16 15
    (mLayerI 8 31 (mLayerI 4 63 (mLayerI 2 127 (mLayerI 1 255 g)))))))

theorem mRoundTrip (g : Nat → ZMod q) :
    ∀ i, i < 256 → mInvChain (mNttChain g) i = 256 * g i := by
  have t1 := peel_step 1 (by simp [LenOK]) 1
    (mLayerF 2 64 (mLayerF 4 32 (mLayerF 8 16
      (mLayerF 16 8 (mLayerF 32 4 (mLayerF 64 2 (mLayerF 128 1 g)))))))
    (mNttChain g) (fun i hi => (one_mul _).symm)
  have t2 := peel_step 2 (by simp [LenOK]) _ _ _ t1
  have t3 := peel_step 4 (by simp [LenOK]) _ _ _ t2
  have t4 := peel_step 8 (by simp [LenOK]) _ _ _ t3
  have t5 := peel_step 16 (by simp [LenOK]) _ _ _ t4
  have t6 := peel_step 32 (by simp [LenOK]) _ _ _ t5
  have t7 := peel_step 64 (by simp [LenOK]) _ _ _ t6
  have t8 := peel_step 128 (by simp [LenOK]) _ _ _ t7
  intro i hi
  calc mInvChain (mNttChain g) i
      = 2 * (2 * (2 * (2 * (2 * (2 * (2 * (2 * 1))))))) * g i := t8 i hi
    _ = 256 * g i := by norm_num

theorem roundtrip_corr (p : Nat → Nat) (hp : ∀ i, i < 256 → p i < q) :
    Corr
      (invLayer 128 1 (invLayer 64 3 (invLayer 32 7 (invLayer 16 15
        (invLayer 8 31 (invLayer 4 63 (invLayer 2 127
          (invLayer 1 255 (ntt p)))))))))
      (mInvChain (mNttChain (fun i => ((p i : Nat) : ZMod q)))) := by
  have h0 : Corr p (fun i => ((p i : Nat) : ZMod q)) :=
    fun i hi => ⟨hp i hi, rfl⟩
  have c1 := nttLayer_corr 128 1 (by simp [LenOK]) _ _ h0
  have c2 := nttLayer_corr 64 2 (by simp [LenOK]) _ _ c1
  have c3 := nttLayer_corr 32 4 (by simp [LenOK]) _ _ c2
  have c4 := nttLayer_corr 16 8 (by simp [LenOK]) _ _ c3
  have c5 := nttLayer_corr 8 16 (by simp [LenOK]) _ _ c4
  have c6 := nttLayer_corr 4 32 (by simp [LenOK]) _ _ c5
  have c7 := nttLayer_corr 2 64 (by simp [LenOK]) _ _ c6
  have c8 := nttLayer_corr 1 128 (by simp [LenOK]) _ _ c7
  have d1 := invLayer_corr 1 255 (by simp [LenOK]) (by norm_num) _ _ c8
  have d2 := invLayer_corr 2 127 (by simp [LenOK]) (by norm_num) _ _ d1
  have d3 := invLayer_corr 4 63 (by simp [LenOK]) (by norm_num) _ _ d2
  have d4 := invLayer_corr 8 31 (by simp [LenOK]) (by norm_num) _ _ d3
  have d5 := invLayer_corr 16 15 (by simp [LenOK]) (by norm_num) _ _ d4
  have d6 := invLayer_corr 32 7 (by simp [LenOK]) (by norm_num) _ _ d5
  have d7 := invLayer_corr 64 3 (by simp [LenOK]) (by norm_num) _ _ d6
  have d8 := invLayer_corr 128 1 (by simp [LenOK]) (by norm_num) _ _ d7
  exact d8

theorem natcast_inj_q {a b : Nat} (ha : a < q) (hb : b < q)
    (h : (a : ZMod q) = (b : ZMod q)) : a = b := by
  have := congrArg ZMod.val h
  rwa [ZMod.val_cast_of_lt ha, ZMod.val_cast_of_lt hb] at this

theorem invN_lt : invN < q := by simp [invN, q]

theorem scale_const (x : ZMod q) :
    mmul (256 * x) ((invN : Nat) : ZMod q) = (2 ^ 32 : ZMod q) * x := by
  have h256 : (256 : ZMod q) * ((invN : Nat) : ZMod q) * rInvZ =
      (2 ^ 32 : ZMod q) := by
    simp only [invN, rInvZ, rInvNat, q]
    decide
  simp only [mmul]
  linear_combination x * h256

/-- The round-trip `invNTT (ntt p)` multiplies every coefficient by
`R = 2^32` modulo `q` (the result is `p` in Montgomery form, not `p`). -/
theorem invNTT_ntt_eq (p : Nat → Nat) (hp : ∀ i, i < 256 → p i < q) :
    ∀ i, i < 256 → invNTT (ntt p) i = p i * 2 ^ 32 % q := by
  intro i hi
  obtain ⟨hlt, hcast⟩ := roundtrip_corr p hp i hi
  have h2 := fieldMul_cast _ _ hlt invN_lt
  rw [hcast] at h2
  have h3 := mRoundTrip (fun i => ((p i : Nat) : ZMod q)) i hi
  rw [h3] at h2
  rw [scale_const] at h2
  have hfin : ((invNTT (ntt p) i : Nat) : ZMod q) =
      ((p i * 2 ^ 32 % q : Nat) : ZMod q) := by
    rw [show invNTT (ntt p) i = fieldMul
      (invLayer 128 1 (invLayer 64 3 (invLayer 32 7 (invLayer 16 15
        (invLayer 8 31 (invLayer 4 63 (invLayer 2 127
          (invLayer 1 255 (ntt p)))))))) i) invN from rfl]
    rw [h2, ZMod.natCast_mod]
    push_cast
    ring
  have hl : invNTT (ntt p) i < q := by
    rw [show invNTT (ntt p) i = fieldMul
      (invLayer 128 1 (invLayer 64 3 (invLayer 32 7 (invLayer 16 15
        (invLayer 8 31 (invLayer 4 63 (invLayer 2 127
          (invLayer 1 255 (ntt p)))))))) i) invN from rfl]
    exact (fieldMul_ok _ _ hlt invN_lt).1
  exact natcast_inj_q hl (Nat.mod_lt _ (by simp [q])) hfin

/-- The delta polynomial `1, 0, 0, …` used as the concrete counterexample
input for the NTT round-trip claim. -/
def deltaPoly : Nat → Nat := fun i => if i = 0 then 1 else 0

/-- C2 counterexample: the round-trip does **not** return the input:
on `p = (1, 0, …, 0)` coefficient 0 of `invNTT (ntt p)` is
`2^32 mod q = 4193792`, not `1`. -/
theorem claim_C2_counterexample : invNTT (ntt deltaPoly) 0 ≠ deltaPoly 0 := by
  have h := invNTT_ntt_eq deltaPoly
    (by intro i hi; simp only [deltaPoly]; split <;> simp [q]) 0 (by norm_num)
  rw [h]
  simp only [deltaPoly, if_pos rfl]
  decide

/-- C2 (amended): for every polynomial `p` with 256 coefficients in
`[0, q)`, the round-trip `invNTT (ntt p)` equals `p` scaled
coefficient-wise by the Montgomery constant `R = 2^32` modulo `q`
(it equals `p` lifted to Montgomery form, not `p` itself). -/
theorem claim_C2 (p : Nat → Nat) (hp : ∀ i, i < 256 → p i < q) :
    ∀ i, i < 256 → invNTT (ntt p) i = p i * 2 ^ 32 % q :=
  invNTT_ntt_eq p hp

/-- Witness for C2 at the delta polynomial, coefficient 0. -/
theorem claim_C2_witness :
    (∀ i, i < 256 → deltaPoly i < q) ∧
      invNTT (ntt deltaPoly) 0 = deltaPoly 0 * 2 ^ 32 % q :=
  ⟨fun i hi => by simp only [deltaPoly]; split <;> simp [q],
   claim_C2 deltaPoly
     (fun i hi => by simp only [deltaPoly]; split <;> simp [q]) 0
     (by norm_num)⟩

/-! ## Compression (source: `highBits`, `decompose`, `makeHint`,
`useHint`, `infinityNorm` in compress.go).

These routines run on `int32`/`uint32`.  For `r < q` every intermediate
fits in 32 bits except the two masking tricks, which are embedded
two's-complement-faithfully: `sar31`/`sub32` act on 32-bit patterns
(`Nat`), and the `int32` arithmetic shift of a value `x` with
`|x| < 2^31` is `x >>> 31` on `Int` (Lean's `Int` shift is the same
floor shift).  The bitwise AND of that mask (which is `0` or `-1`,
i.e. all bits set) with a nonnegative value is `maskAnd`. -/

/-- Arithmetic right shift by 31 of an `int32` given as its 32-bit
two's-complement pattern: every bit becomes a copy of the sign bit. -/
def sar31 (x : Nat) : Nat := if x < 2 ^ 31 then 0 else 2 ^ 32 - 1

/-- Two's-complement pattern of the `int32` difference `a - b`
(for `a, b < 2^32`). -/
def sub32 (a b : Nat) : Nat := (a + 2 ^ 32 - b) % 2 ^ 32

/-- Bitwise AND of an `int32` mask known to be `0` or `-1` (all bits
set) with another `int32`: `(-1) &&& y = y` and `0 &&& y = 0`. -/
def maskAnd (m y : Int) : Int := if m = 0 then 0 else y

def highBits (r gamma2 : Nat) : Nat :=
  if gamma2 = gamma2QMinus1Div32 then
    (((r + 127) >>> 7) * 1025 + 2 ^ 21) >>> 22 &&& 15
  else
    (((r + 127) >>> 7) * 11275 + 2 ^ 23) >>> 24 ^^^
      (sar31 (sub32 43 ((((r + 127) >>> 7) * 11275 + 2 ^ 23) >>> 24)) &&&
        ((((r + 127) >>> 7) * 11275 + 2 ^ 23) >>> 24))

def decompose (r gamma2 : Nat) : Nat × Int :=
  let r1 := highBits r gamma2
  let r0 : Int := (r : Int) - (r1 : Int) * (gamma2 : Int) * 2
  (r1, r0 - maskAnd ((((qMinus1Div2 : Nat) : Int) - r0) >>> (31 : Nat)) (q : Int))

def makeHint (z r gamma2 : Nat) : Nat :=
  if highBits (fieldAdd r z) gamma2 ≠ highBits r gamma2 then 1 else 0

def useHint (hint r gamma2 : Nat) : Nat :=
  let r1 := (decompose r gamma2).1
  let r0 := (decompose r gamma2).2
  if hint = 0 then r1
  else if gamma2 = gamma2QMinus1Div32 then
    if r0 > 0 then (r1 + 1) &&& 15 else sub32 r1 1 &&& 15
  else
    if r0 > 0 then (if r1 = 43 then 0 else r1 + 1)
    else (if r1 = 0 then 43 else r1 - 1)

def infinityNorm (a : Nat) : Nat := if a ≤ qMinus1Div2 then a else q - a

/-! ## Characterisation of `highBits`/`decompose` (FIPS 204 Alg. 36/37) -/

theorem intShift31 (x : Int) (h1 : -(2 ^ 31) ≤ x) (h2 : x < 2 ^ 31) :
    x >>> (31 : Nat) = if x < 0 then -1 else 0 := by
  cases x with
  | ofNat n =>
      have h2n : (n : Int) < 2 ^ 31 := h2
      have hn : n < 2 ^ 31 := by omega
      have hz : n >>> 31 = 0 := by rw [Nat.shiftRight_eq_div_pow]; omega
      have : (Int.ofNat n) >>> (31 : Nat) = Int.ofNat (n >>> 31) := rfl
      rw [this, hz, if_neg (by exact Int.not_lt.mpr (Int.ofNat_nonneg n))]
      rfl
  | negSucc n =>
      have hn : n < 2 ^ 31 := by
        have := Int.negSucc_eq n
        omega
      have hz : n >>> 31 = 0 := by rw [Nat.shiftRight_eq_div_pow]; omega
      have : (Int.negSucc n) >>> (31 : Nat) = Int.negSucc (n >>> 31) := rfl
      rw [this, hz, if_pos (Int.negSucc_lt_zero _)]
      rfl

theorem highBits32_char (r : Nat) (hr : r < q) :
    highBits r gamma2QMinus1Div32 = (r + 261887) / 523776 % 16 := by
  unfold highBits
  rw [if_pos rfl,
    show (15 : Nat) = 2 ^ 4 - 1 from rfl, Nat.and_pow_two_sub_one_eq_mod]
  simp only [Nat.shiftRight_eq_div_pow]
  have hmagic : ((r + 127) / 2 ^ 7 * 1025 + 2 ^ 21) / 2 ^ 22 =
      (r + 261887) / 523776 := by
    simp only [q] at hr; omega
  rw [hmagic]

theorem highBits88_char (r : Nat) (hr : r < q) :
    highBits r gamma2QMinus1Div88 = (r + 95231) / 190464 % 44 := by
  have hne : gamma2QMinus1Div88 ≠ gamma2QMinus1Div32 := by decide
  unfold highBits
  rw [if_neg hne]
  simp only [Nat.shiftRight_eq_div_pow]
  have hmagic : ((r + 127) / 2 ^ 7 * 11275 + 2 ^ 23) / 2 ^ 24 =
      (r + 95231) / 190464 := by
    simp only [q] at hr; omega
  rw [hmagic]
  have hv : (r + 95231) / 190464 ≤ 44 := by simp only [q] at hr; omega
  rcases Nat.lt_or_ge ((r + 95231) / 190464) 44 with h43 | h44
  · have hsub : sub32 43 ((r + 95231) / 190464) =
        43 - (r + 95231) / 190464 := by
      simp only [sub32]; omega
    have hsar : sar31 (43 - (r + 95231) / 190464) = 0 := by
      simp only [sar31]; rw [if_pos (by omega)]
    rw [hsub, hsar, Nat.zero_and, Nat.xor_zero]
    omega
  · have h44 : (r + 95231) / 190464 = 44 := by omega
    rw [h44]
    decide

theorem decompose_eq (r g2 : Nat) :
    decompose r g2 = (highBits r g2,
      ((r : Int) - (highBits r g2 : Int) * (g2 : Int) * 2) -
        maskAnd ((((qMinus1Div2 : Nat) : Int) -
          ((r : Int) - (highBits r g2 : Int) * (g2 : Int) * 2)) >>> (31 : Nat))
          (q : Int)) := rfl

theorem decompose32_ok (r : Nat) (hr : r < q) :
    (decompose r gamma2QMinus1Div32).1 = highBits r gamma2QMinus1Div32 ∧
    (((decompose r gamma2QMinus1Div32).1 : Int) * 2 * 261888 +
      (decompose r gamma2QMinus1Div32).2) % 8380417 = (r : Int) % 8380417 ∧
    -(261888 : Int) ≤ (decompose r gamma2QMinus1Div32).2 ∧
    (decompose r gamma2QMinus1Div32).2 ≤ 261888 := by
  have hc := highBits32_char r hr
  have h15 : highBits r gamma2QMinus1Div32 ≤ 15 := by rw [hc]; omega
  have hg2 : ((gamma2QMinus1Div32 : Nat) : Int) = 261888 := by
    norm_num [gamma2QMinus1Div32, q]
  have hqh : ((qMinus1Div2 : Nat) : Int) = 4190208 := by
    norm_num [qMinus1Div2, q]
  have hq : ((q : Nat) : Int) = 8380417 := by norm_num [q]
  rw [decompose_eq, hg2, hqh, hq]
  simp only [q] at hr
  refine ⟨rfl, ?_⟩
  have hb1 : -(2 ^ 31) ≤ (4190208 : Int) -
      ((r : Int) - (highBits r gamma2QMinus1Div32 : Int) * 261888 * 2) := by
    push_cast
    omega
  have hb2 : (4190208 : Int) -
      ((r : Int) - (highBits r gamma2QMinus1Div32 : Int) * 261888 * 2) <
      2 ^ 31 := by
    push_cast
    omega
  rw [intShift31 _ hb1 hb2]
  by_cases hsgn : (4190208 : Int) -
      ((r : Int) - (highBits r gamma2QMinus1Div32 : Int) * 261888 * 2) < 0
  · rw [if_pos hsgn]
    simp only [maskAnd, if_neg (by norm_num : (-1 : Int) ≠ 0)]
    push_cast at hsgn ⊢
    omega
  · rw [if_neg hsgn]
    simp only [maskAnd, if_pos rfl, sub_zero]
    push_cast at hsgn ⊢
    omega

theorem decompose88_ok (r : Nat) (hr : r < q) :
    (decompose r gamma2QMinus1Div88).1 = highBits r gamma2QMinus1Div88 ∧
    (((decompose r gamma2QMinus1Div88).1 : Int) * 2 * 95232 +
      (decompose r gamma2QMinus1Div88).2) % 8380417 = (r : Int) % 8380417 ∧
    -(95232 : Int) ≤ (decompose r gamma2QMinus1Div88).2 ∧
    (decompose r gamma2QMinus1Div88).2 ≤ 95232 := by
  have hc := highBits88_char r hr
  have h43 : highBits r gamma2QMinus1Div88 ≤ 43 := by rw [hc]; omega
  have hg2 : ((gamma2QMinus1Div88 : Nat) : Int) = 95232 := by
    norm_num [gamma2QMinus1Div88, q]
  have hqh : ((qMinus1Div2 : Nat) : Int) = 4190208 := by
    norm_num [qMinus1Div2, q]
  have hq : ((q : Nat) : Int) = 8380417 := by norm_num [q]
  rw [decompose_eq, hg2, hqh, hq]
  simp only [q] at hr
  refine ⟨rfl, ?_⟩
  have hb1 : -(2 ^ 31) ≤ (4190208 : Int) -
      ((r : Int) - (highBits r gamma2QMinus1Div88 : Int) * 95232 * 2) := by
    push_cast
    omega
  have hb2 : (4190208 : Int) -
      ((r : Int) - (highBits r gamma2QMinus1Div88 : Int) * 95232 * 2) <
      2 ^ 31 := by
    push_cast
    omega
  rw [intShift31 _ hb1 hb2]
  by_cases hsgn : (4190208 : Int) -
      ((r : Int) - (highBits r gamma2QMinus1Div88 : Int) * 95232 * 2) < 0
  · rw [if_pos hsgn]
    simp only [maskAnd, if_neg (by norm_num : (-1 : Int) ≠ 0)]
    push_cast at hsgn ⊢
    omega
  · rw [if_neg hsgn]
    simp only [maskAnd, if_pos rfl, sub_zero]
    push_cast at hsgn ⊢
    omega

/-- C3 counterexample: at `r = q - γ2 = 8118529` with `γ2 = (q-1)/32`,
`decompose` returns the signed residue `r0 = -γ2`, which is **not** in
the claimed open-below interval `(-γ2, γ2]`. -/
theorem claim_C3_counterexample :
    (decompose 8118529 gamma2QMinus1Div32).2 = -261888 ∧
    ¬ (-((gamma2QMinus1Div32 : Nat) : Int) <
        (decompose 8118529 gamma2QMinus1Div32).2) := by
  constructor
  · decide
  · decide

/-- C3 (amended): for every `r ∈ [0, q)` and `γ₂ ∈ {(q−1)/32, (q−1)/88}`,
`highBits r γ₂` lies in `[0, 16)` resp. `[0, 44)`, `decompose r γ₂`
returns `(highBits r γ₂, r0)` with `r1·2·γ₂ + r0 ≡ r (mod q)`, and the
signed residue `r0` lies in the **closed** interval `[-γ₂, γ₂]` (the
lower endpoint `-γ₂` is attained, at `r = q - γ₂`). -/
theorem claim_C3 (r : Nat) (hr : r < q) (g2 : Nat)
    (hg : g2 = gamma2QMinus1Div32 ∨ g2 = gamma2QMinus1Div88) :
    highBits r g2 < (if g2 = gamma2QMinus1Div32 then 16 else 44) ∧
    (decompose r g2).1 = highBits r g2 ∧
    (((decompose r g2).1 : Int) * 2 * (g2 : Int) + (decompose r g2).2) %
      ((q : Nat) : Int) = (r : Int) % ((q : Nat) : Int) ∧
    -(g2 : Int) ≤ (decompose r g2).2 ∧ (decompose r g2).2 ≤ (g2 : Int) := by
  rcases hg with rfl | rfl
  · obtain ⟨h1, h2, h3, h4⟩ := decompose32_ok r hr
    have hg2 : ((gamma2QMinus1Div32 : Nat) : Int) = 261888 := by
      norm_num [gamma2QMinus1Div32, q]
    have hq : ((q : Nat) : Int) = 8380417 := by norm_num [q]
    rw [if_pos rfl, hg2, hq]
    refine ⟨?_, h1, h2, h3, h4⟩
    rw [highBits32_char r hr]
    omega
  · obtain ⟨h1, h2, h3, h4⟩ := decompose88_ok r hr
    have hg2 : ((gamma2QMinus1Div88 : Nat) : Int) = 95232 := by
      norm_num [gamma2QMinus1Div88, q]
    have hq : ((q : Nat) : Int) = 8380417 := by norm_num [q]
    rw [if_neg (by decide), hg2, hq]
    refine ⟨?_, h1, h2, h3, h4⟩
    rw [highBits88_char r hr]
    omega

/-- Witness for C3 at `r = 1000`, `γ₂ = (q−1)/32`. -/
theorem claim_C3_witness :
    (1000 < q ∧
      (gamma2QMinus1Div32 = gamma2QMinus1Div32 ∨
        gamma2QMinus1Div32 = gamma2QMinus1Div88)) ∧
    (highBits 1000 gamma2QMinus1Div32 <
      (if gamma2QMinus1Div32 = gamma2QMinus1Div32 then 16 else 44) ∧
    (decompose 1000 gamma2QMinus1Div32).1 = highBits 1000 gamma2QMinus1Div32 ∧
    (((decompose 1000 gamma2QMinus1Div32).1 : Int) * 2 *
        (gamma2QMinus1Div32 : Int) + (decompose 1000 gamma2QMinus1Div32).2) %
      ((q : Nat) : Int) = ((1000 : Nat) : Int) % ((q : Nat) : Int) ∧
    -((gamma2QMinus1Div32 : Nat) : Int) ≤ (decompose 1000 gamma2QMinus1Div32).2 ∧
    (decompose 1000 gamma2QMinus1Div32).2 ≤ ((gamma2QMinus1Div32 : Nat) : Int)) :=
  ⟨⟨by decide, Or.inl rfl⟩,
   claim_C3 1000 (by decide) gamma2QMinus1Div32 (Or.inl rfl)⟩

/-! ## Hint recovery (C10): the arithmetic cores, then the lemma. -/

theorem hintCore32Pos (r z v kv kr mv : Nat) (r0v : Int)
    (hr : r < 8380417) (hz : z < 8380417)
    (hnorm : z < 261888 ∨ 8380417 - 261888 < z)
    (hv : (r + z < 8380417 ∧ v = r + z) ∨
          (8380417 ≤ r + z ∧ v + 8380417 = r + z))
    (hkv : kv * 523776 ≤ v + 261887 ∧ v + 261887 < (kv + 1) * 523776)
    (hkr : kr * 523776 ≤ r + 261887 ∧ r + 261887 < (kr + 1) * 523776)
    (hmv : (kv ≤ 15 ∧ mv = kv) ∨ (kv = 16 ∧ mv = 0))
    (hcong : ((mv : Int) * 2 * 261888 + r0v) % 8380417 = (v : Int) % 8380417)
    (hrange : -(261888 : Int) ≤ r0v ∧ r0v ≤ 261888)
    (hne : mv ≠ kr % 16) (hpos : r0v > 0) :
    (mv + 1) % 16 = kr % 16 := by
  rcases hnorm with hn | hn <;> rcases hmv with ⟨h1, h2⟩ | ⟨h1, h2⟩ <;>
    rcases hv with ⟨hw, hveq⟩ | ⟨hw, hveq⟩ <;> omega

theorem hintCore32Neg (r z v kv kr mv : Nat) (r0v : Int)
    (hr : r < 8380417) (hz : z < 8380417)
    (hnorm : z < 261888 ∨ 8380417 - 261888 < z)
    (hv : (r + z < 8380417 ∧ v = r + z) ∨
          (8380417 ≤ r + z ∧ v + 8380417 = r + z))
    (hkv : kv * 523776 ≤ v + 261887 ∧ v + 261887 < (kv + 1) * 523776)
    (hkr : kr * 523776 ≤ r + 261887 ∧ r + 261887 < (kr + 1) * 523776)
    (hmv : (kv ≤ 15 ∧ mv = kv) ∨ (kv = 16 ∧ mv = 0))
    (hcong : ((mv : Int) * 2 * 261888 + r0v) % 8380417 = (v : Int) % 8380417)
    (hrange : -(261888 : Int) ≤ r0v ∧ r0v ≤ 261888)
    (hne : mv ≠ kr % 16) (hnpos : ¬ r0v > 0) :
    (mv + 2 ^ 32 - 1) % 2 ^ 32 % 16 = kr % 16 := by
  rcases hnorm with hn | hn <;> rcases hmv with ⟨h1, h2⟩ | ⟨h1, h2⟩ <;>
    rcases hv with ⟨hw, hveq⟩ | ⟨hw, hveq⟩ <;> omega

theorem hintCore88Pos (r z v kv kr mv : Nat) (r0v : Int)
    (hr : r < 8380417) (hz : z < 8380417)
    (hnorm : z < 95232 ∨ 8380417 - 95232 < z)
    (hv : (r + z < 8380417 ∧ v = r + z) ∨
          (8380417 ≤ r + z ∧ v + 8380417 = r + z))
    (hkv : kv * 190464 ≤ v + 95231 ∧ v + 95231 < (kv + 1) * 190464)
    (hkr : kr * 190464 ≤ r + 95231 ∧ r + 95231 < (kr + 1) * 190464)
    (hmv : (kv ≤ 43 ∧ mv = kv) ∨ (kv = 44 ∧ mv = 0))
    (hcong : ((mv : Int) * 2 * 95232 + r0v) % 8380417 = (v : Int) % 8380417)
    (hrange : -(95232 : Int) ≤ r0v ∧ r0v ≤ 95232)
    (hne : mv ≠ kr % 44) (hpos : r0v > 0) :
    (mv + 1) % 44 = kr % 44 := by
  rcases hnorm with hn | hn <;> rcases hmv with ⟨h1, h2⟩ | ⟨h1, h2⟩ <;>
    rcases hv with ⟨hw, hveq⟩ | ⟨hw, hveq⟩ <;> omega

theorem hintCore88Neg (r z v kv kr mv : Nat) (r0v : Int)
    (hr : r < 8380417) (hz : z < 8380417)
    (hnorm : z < 95232 ∨ 8380417 - 95232 < z)
    (hv : (r + z < 8380417 ∧ v = r + z) ∨
          (8380417 ≤ r + z ∧ v + 8380417 = r + z))
    (hkv : kv * 190464 ≤ v + 95231 ∧ v + 95231 < (kv + 1) * 190464)
    (hkr : kr * 190464 ≤ r + 95231 ∧ r + 95231 < (kr + 1) * 190464)
    (hmv : (kv ≤ 43 ∧ mv = kv) ∨ (kv = 44 ∧ mv = 0))
    (hcong : ((mv : Int) * 2 * 95232 + r0v) % 8380417 = (v : Int) % 8380417)
    (hrange : -(95232 : Int) ≤ r0v ∧ r0v ≤ 95232)
    (hne : mv ≠ kr % 44) (hnpos : ¬ r0v > 0) :
    (mv + 43) % 44 = kr % 44 := by
  rcases hnorm with hn | hn <;> rcases hmv with ⟨h1, h2⟩ | ⟨h1, h2⟩ <;>
    rcases hv with ⟨hw, hveq⟩ | ⟨hw, hveq⟩ <;> omega

/-- C10: for `γ₂ ∈ {(q−1)/32, (q−1)/88}` and field elements `r, z` with
the centred magnitude of `z` below `γ₂`, the verifier's hint application
recovers the signer's high bits:
`useHint (makeHint z r γ₂) (r + z) γ₂ = highBits r γ₂`. -/
theorem claim_C10 (g2 : Nat)
    (hg : g2 = gamma2QMinus1Div32 ∨ g2 = gamma2QMinus1Div88)
    (r z : Nat) (hr : r < q) (hz : z < q) (hnorm : infinityNorm z < g2) :
    useHint (makeHint z r g2) (fieldAdd r z) g2 = highBits r g2 := by
  have hvlt : fieldAdd r z < q := fieldAdd_lt r z hr hz
  have hveq : fieldAdd r z = (r + z) % q := fieldAdd_eq r z hr hz
  rcases hg with rfl | rfl
  · simp only [makeHint]
    by_cases hne : highBits (fieldAdd r z) gamma2QMinus1Div32 ≠
        highBits r gamma2QMinus1Div32
    · rw [if_pos hne]
      obtain ⟨hd1, hd2, hd3, hd4⟩ := decompose32_ok (fieldAdd r z) hvlt
      have hcv := highBits32_char (fieldAdd r z) hvlt
      have hcr := highBits32_char r hr
      rw [hd1, hcv] at hd2
      rw [hcv, hcr] at hne
      generalize hV : fieldAdd r z = V at hvlt hveq hd1 hd2 hd3 hd4 hcv hne ⊢
      have hvd : (r + z < 8380417 ∧ V = r + z) ∨
          (8380417 ≤ r + z ∧ V + 8380417 = r + z) := by
        clear hd1 hd2 hd3 hd4 hcv hcr hne hnorm
        simp only [q] at hveq hr hz
        omega
      have hk_v : (V + 261887) / 523776 * 523776 ≤ V + 261887 ∧
          V + 261887 < ((V + 261887) / 523776 + 1) * 523776 := by
        clear hd1 hd2 hd3 hd4 hcv hcr hne hnorm hvd
        omega
      have hk_r : (r + 261887) / 523776 * 523776 ≤ r + 261887 ∧
          r + 261887 < ((r + 261887) / 523776 + 1) * 523776 := by
        clear hd1 hd2 hd3 hd4 hcv hcr hne hnorm hvd
        omega
      have hmv : ((V + 261887) / 523776 ≤ 15 ∧
            (V + 261887) / 523776 % 16 = (V + 261887) / 523776) ∨
          ((V + 261887) / 523776 = 16 ∧ (V + 261887) / 523776 % 16 = 0) := by
        clear hd1 hd2 hd3 hd4 hcv hcr hne hnorm hvd hk_v hk_r
        simp only [q] at hvlt
        omega
      have hz' : z < 261888 ∨ 8380417 - 261888 < z := by
        clear hd1 hd2 hd3 hd4 hcv hcr hne hvd hk_v hk_r hmv
        simp only [infinityNorm, qMinus1Div2, gamma2QMinus1Div32, q] at hnorm
        split_ifs at hnorm <;> omega
      unfold useHint
      rw [if_neg (by norm_num : (1 : Nat) ≠ 0), if_pos rfl]
      by_cases hp : (decompose V gamma2QMinus1Div32).2 > 0
      · rw [if_pos hp, show (15 : Nat) = 2 ^ 4 - 1 from rfl,
          Nat.and_pow_two_sub_one_eq_mod, hd1, hcv, hcr]
        exact hintCore32Pos r z V _ _ _ _ hr hz hz' hvd hk_v hk_r hmv hd2
          ⟨hd3, hd4⟩ hne hp
      · rw [if_neg hp]
        simp only [sub32]
        rw [show (15 : Nat) = 2 ^ 4 - 1 from rfl,
          Nat.and_pow_two_sub_one_eq_mod, hd1, hcv, hcr]
        exact hintCore32Neg r z V _ _ _ _ hr hz hz' hvd hk_v hk_r hmv hd2
          ⟨hd3, hd4⟩ hne hp
    · rw [if_neg hne]
      unfold useHint
      rw [if_pos rfl, (decompose32_ok (fieldAdd r z) hvlt).1]
      exact not_not.mp hne
  · simp only [makeHint]
    by_cases hne : highBits (fieldAdd r z) gamma2QMinus1Div88 ≠
        highBits r gamma2QMinus1Div88
    · rw [if_pos hne]
      obtain ⟨hd1, hd2, hd3, hd4⟩ := decompose88_ok (fieldAdd r z) hvlt
      have hcv := highBits88_char (fieldAdd r z) hvlt
      have hcr := highBits88_char r hr
      rw [hd1, hcv] at hd2
      rw [hcv, hcr] at hne
      generalize hV : fieldAdd r z = V at hvlt hveq hd1 hd2 hd3 hd4 hcv hne ⊢
      have hvd : (r + z < 8380417 ∧ V = r + z) ∨
          (8380417 ≤ r + z ∧ V + 8380417 = r + z) := by
        clear hd1 hd2 hd3 hd4 hcv hcr hne hnorm
        simp only [q] at hveq hr hz
        omega
      have hk_v : (V + 95231) / 190464 * 190464 ≤ V + 95231 ∧
          V + 95231 < ((V + 95231) / 190464 + 1) * 190464 := by
        clear hd1 hd2 hd3 hd4 hcv hcr hne hnorm hvd
        omega
      have hk_r : (r + 95231) / 190464 * 190464 ≤ r + 95231 ∧
          r + 95231 < ((r + 95231) / 190464 + 1) * 190464 := by
        clear hd1 hd2 hd3 hd4 hcv hcr hne hnorm hvd
        omega
      have hmv : ((V + 95231) / 190464 ≤ 43 ∧
            (V + 95231) / 190464 % 44 = (V + 95231) / 190464) ∨
          ((V + 95231) / 190464 = 44 ∧ (V + 95231) / 190464 % 44 = 0) := by
        clear hd1 hd2 hd3 hd4 hcv hcr hne hnorm hvd hk_v hk_r
        simp only [q] at hvlt
        omega
      have hz' : z < 95232 ∨ 8380417 - 95232 < z := by
        clear hd1 hd2 hd3 hd4 hcv hcr hne hvd hk_v hk_r hmv
        simp only [infinityNorm, qMinus1Div2, gamma2QMinus1Div88, q] at hnorm
        split_ifs at hnorm <;> omega
      have hM43 : (decompose V gamma2QMinus1Div88).1 ≤ 43 := by
        rw [hd1, hcv]
        clear hd1 hd2 hd3 hd4 hcv hcr hne hnorm hvd hk_v hk_r hmv hz'
        omega
      unfold useHint
      rw [if_neg (by norm_num : (1 : Nat) ≠ 0), if_neg (by decide :
        ¬ gamma2QMinus1Div88 = gamma2QMinus1Div32)]
      by_cases hp : (decompose V gamma2QMinus1Div88).2 > 0
      · rw [if_pos hp]
        have hcvt : (if (decompose V gamma2QMinus1Div88).1 = 43 then 0
              else (decompose V gamma2QMinus1Div88).1 + 1) =
            ((decompose V gamma2QMinus1Div88).1 + 1) % 44 := by
          split_ifs with h43 <;> omega
        rw [hcvt, hd1, hcv, hcr]
        exact hintCore88Pos r z V _ _ _ _ hr hz hz' hvd hk_v hk_r hmv hd2
          ⟨hd3, hd4⟩ hne hp
      · rw [if_neg hp]
        have hcvt : (if (decompose V gamma2QMinus1Div88).1 = 0 then 43
              else (decompose V gamma2QMinus1Div88).1 - 1) =
            ((decompose V gamma2QMinus1Div88).1 + 43) % 44 := by
          split_ifs with h0 <;> omega
        rw [hcvt, hd1, hcv, hcr]
        exact hintCore88Neg r z V _ _ _ _ hr hz hz' hvd hk_v hk_r hmv hd2
          ⟨hd3, hd4⟩ hne hp
    · rw [if_neg hne]
      unfold useHint
      rw [if_pos rfl, (decompose88_ok (fieldAdd r z) hvlt).1]
      exact not_not.mp hne

/-- Witness for C10 at `γ₂ = (q−1)/32`, `r = 5000000`, `z = 100000`. -/
theorem claim_C10_witness :
    ((gamma2QMinus1Div32 = gamma2QMinus1Div32 ∨
        gamma2QMinus1Div32 = gamma2QMinus1Div88) ∧
      5000000 < q ∧ 100000 < q ∧
      infinityNorm 100000 < gamma2QMinus1Div32) ∧
    useHint (makeHint 100000 5000000 gamma2QMinus1Div32)
        (fieldAdd 5000000 100000) gamma2QMinus1Div32 =
      highBits 5000000 gamma2QMinus1Div32 :=
  ⟨⟨Or.inl rfl, by decide, by decide, by decide⟩,
   claim_C10 gamma2QMinus1Div32 (Or.inl rfl) 5000000 100000
     (by decide) (by decide) (by decide)⟩

/-! ## Challenge sampling (source: `sampleChallenge`, FIPS 204 Alg. 29).

The SHAKE256 squeeze of the seed is modelled as an abstract byte stream
`stream : Nat → Nat` (the Go code reads 136-byte blocks and an offset;
refilling the block buffer is exactly advancing in the flat stream).
The rejection loop draws bytes until one is `≤ i`; it is given fuel and
returns `none` when the fuel runs out (the Go loop would keep reading). -/

def drawLE (stream : Nat → Nat) (bound : Nat) : Nat → Nat → Option (Nat × Nat)
  | _, 0 => none
  | pos, Nat.succ fuel =>
      if stream pos ≤ bound then some (stream pos, pos + 1)
      else drawLE stream bound (pos + 1) fuel

/-- The Fisher–Yates loop of `sampleChallenge`: for `i` from `256-tau`
to `255`, draw `j ≤ i`, set `c[i] := c[j]` and `c[j] := ±1` from the
next sign bit.  Recursion is on `count`, the number of remaining
indices. -/
def sampleLoop (stream : Nat → Nat) (fuel : Nat) :
    Nat → Nat → List Nat → Nat → Nat → Option (List Nat)
  | _, _, c, _, 0 => some c
  | signs, pos, c, i, Nat.succ count =>
      match drawLE stream i pos fuel with
      | none => none
      | some (j, pos2) =>
          sampleLoop stream fuel (signs >>> 1) pos2
            ((c.set i (c.getD j 0)).set j
              (if signs &&& 1 = 0 then 1 else q - 1)) (i + 1) count

def sampleChallenge (stream : Nat → Nat) (tau fuel : Nat) : Option (List Nat) :=
  let signs := stream 0 + stream 1 * 2 ^ 8 + stream 2 * 2 ^ 16 +
    stream 3 * 2 ^ 24 + stream 4 * 2 ^ 32 + stream 5 * 2 ^ 40 +
    stream 6 * 2 ^ 48 + stream 7 * 2 ^ 56
  sampleLoop stream fuel signs 8 (List.replicate 256 0) (256 - tau) tau

theorem drawLE_le (stream : Nat → Nat) (bound : Nat) :
    ∀ fuel pos j pos2,
      drawLE stream bound pos fuel = some (j, pos2) → j ≤ bound := by
  intro fuel
  induction fuel with
  | zero => intro pos j pos2 h; simp [drawLE] at h
  | succ n ih =>
      intro pos j pos2 h
      simp only [drawLE] at h
      split_ifs at h with hle
      · cases h; exact hle
      · exact ih (pos + 1) j pos2 h

theorem getD_set_ne (l : List Nat) (n k a : Nat) (h : n ≠ k) :
    (l.set n a).getD k 0 = l.getD k 0 := by
  simp [List.getD, List.getElem?_set_ne h]

theorem getD_set_self (l : List Nat) (n a : Nat) (h : n < l.length) :
    (l.set n a).getD n 0 = a := by
  simp [List.getD, List.getElem?_set_self, h]

theorem mem_getD (l : List Nat) (n : Nat) (h : n < l.length) :
    l.getD n 0 ∈ l := by
  rw [List.getD_eq_getElem l 0 h]
  exact List.getElem_mem h

theorem countP_set (p : Nat → Bool) (l : List Nat) :
    ∀ n a, n < l.length →
      (l.set n a).countP p + (if p (l.getD n 0) then 1 else 0) =
        l.countP p + (if p a then 1 else 0) := by
  induction l with
  | nil => intro n a h; simp at h
  | cons x xs ih =>
      intro n a h
      cases n with
      | zero =>
          simp only [List.set, List.countP_cons, List.getD_cons_zero]
          ring
      | succ m =>
          have hm : m < xs.length := by simp at h; omega
          simp only [List.set, List.countP_cons, List.getD_cons_succ]
          have hrec := ih m a hm
          omega

/-- Boolean nonzero test used to count nonzero coefficients. -/
def pNZ (x : Nat) : Bool := x != 0

theorem getD_replicate_zero : ∀ n k, (List.replicate n (0 : Nat)).getD k 0 = 0 := by
  intro n
  induction n with
  | zero => intro k; simp [List.getD]
  | succ m ih =>
      intro k
      rw [List.replicate_succ]
      cases k with
      | zero => simp [List.getD]
      | succ kk => rw [List.getD_cons_succ]; exact ih kk

theorem countP_replicate_zero : ∀ n, (List.replicate n (0 : Nat)).countP pNZ = 0 := by
  intro n
  induction n with
  | zero => simp
  | succ m ih => rw [List.replicate_succ, List.countP_cons]; simp [pNZ, ih]

theorem pNZ_zero : pNZ 0 = false := rfl

theorem sampleLoop_ok (stream : Nat → Nat) (fuel : Nat) :
    ∀ count signs pos i c c2,
      i + count = 256 →
      c.length = 256 →
      (∀ x ∈ c, x = 0 ∨ x = 1 ∨ x = q - 1) →
      (∀ k, i ≤ k → c.getD k 0 = 0) →
      sampleLoop stream fuel signs pos c i count = some c2 →
      c2.length = 256 ∧ (∀ x ∈ c2, x = 0 ∨ x = 1 ∨ x = q - 1) ∧
        c2.countP pNZ = c.countP pNZ + count := by
  intro count
  induction count with
  | zero =>
      intro signs pos i c c2 hic hlen hmem hz hs
      simp only [sampleLoop, Option.some.injEq] at hs
      subst hs
      exact ⟨hlen, hmem, by simp⟩
  | succ n ih =>
      intro signs pos i c c2 hic hlen hmem hz hs
      simp only [sampleLoop] at hs
      cases hd : drawLE stream i pos fuel with
      | none => rw [hd] at hs; simp at hs
      | some pr =>
          obtain ⟨j, pos2⟩ := pr
          rw [hd] at hs
          simp only at hs
          have hj : j ≤ i := drawLE_le stream i fuel pos j pos2 hd
          have hilt : i < 256 := by omega
          have hjlt : j < c.length := by omega
          have hwmem : (if signs &&& 1 = 0 then 1 else q - 1) = 1 ∨
              (if signs &&& 1 = 0 then 1 else q - 1) = q - 1 := by
            split_ifs <;> simp
          have hmemj : c.getD j 0 = 0 ∨ c.getD j 0 = 1 ∨ c.getD j 0 = q - 1 :=
            hmem _ (mem_getD c j hjlt)
          have hlen1 : ((c.set i (c.getD j 0)).set j
              (if signs &&& 1 = 0 then 1 else q - 1)).length = 256 := by
            simp [hlen]
          have hmem1 : ∀ x ∈ (c.set i (c.getD j 0)).set j
              (if signs &&& 1 = 0 then 1 else q - 1),
              x = 0 ∨ x = 1 ∨ x = q - 1 := by
            intro x hx
            rcases List.mem_or_eq_of_mem_set hx with hx1 | rfl
            · rcases List.mem_or_eq_of_mem_set hx1 with hx2 | rfl
              · exact hmem x hx2
              · exact hmemj
            · rcases hwmem with hw | hw <;> rw [hw] <;> simp
          have hz1 : ∀ k, i + 1 ≤ k →
              ((c.set i (c.getD j 0)).set j
                (if signs &&& 1 = 0 then 1 else q - 1)).getD k 0 = 0 := by
            intro k hk
            rw [getD_set_ne _ _ _ _ (by omega), getD_set_ne _ _ _ _ (by omega)]
            exact hz k (by omega)
          have hci : c.getD i 0 = 0 := hz i le_rfl
          have hwne : pNZ (if signs &&& 1 = 0 then 1 else q - 1) = true := by
            rcases hwmem with hw | hw <;> rw [hw] <;> simp [pNZ, q]
          have hcount : ((c.set i (c.getD j 0)).set j
                (if signs &&& 1 = 0 then 1 else q - 1)).countP pNZ =
              c.countP pNZ + 1 := by
            by_cases hji : j = i
            · subst hji
              rw [hci]
              have e1 := countP_set pNZ c j 0 (by omega)
              have e2 := countP_set pNZ (c.set j 0) j
                (if signs &&& 1 = 0 then 1 else q - 1) (by simp; omega)
              rw [getD_set_self c j _ (by omega)] at e2
              rw [hci, pNZ_zero] at e1
              rw [pNZ_zero, hwne] at e2
              simp only [Bool.false_eq_true, if_false, if_true] at e1 e2
              omega
            · have e1 := countP_set pNZ c i (c.getD j 0) (by omega)
              have e2 := countP_set pNZ (c.set i (c.getD j 0)) j
                (if signs &&& 1 = 0 then 1 else q - 1) (by simp; omega)
              rw [getD_set_ne _ _ _ _ (fun hh => hji hh.symm)] at e2
              rw [hwne] at e2
              rw [hci, pNZ_zero] at e1
              simp only [Bool.false_eq_true, if_false, if_true] at e1 e2
              omega
          obtain ⟨g1, g2, g3⟩ := ih (signs >>> 1) pos2 (i + 1) _ c2
            (by omega) hlen1 hmem1 hz1 hs
          refine ⟨g1, g2, ?_⟩
          rw [g3, hcount]
          omega

/-- C5: whenever `sampleChallenge` returns (for any byte stream, with
`τ ∈ {39, 49, 60}`), the challenge polynomial has exactly `τ` nonzero
coefficients, and every nonzero coefficient is `1` or `q - 1`
(i.e. `±1` modulo `q`). -/
theorem claim_C5 (stream : Nat → Nat) (tau fuel : Nat)
    (htau : tau = 39 ∨ tau = 49 ∨ tau = 60) (c : List Nat)
    (h : sampleChallenge stream tau fuel = some c) :
    c.length = 256 ∧ c.countP pNZ = tau ∧
      ∀ x ∈ c, x ≠ 0 → x = 1 ∨ x = q - 1 := by
  have htle : tau ≤ 256 := by rcases htau with rfl | rfl | rfl <;> omega
  simp only [sampleChallenge] at h
  obtain ⟨g1, g2, g3⟩ := sampleLoop_ok stream fuel tau _ 8 (256 - tau)
    (List.replicate 256 0) c (by omega) (by rw [List.length_replicate])
    (by intro x hx; rcases List.eq_of_mem_replicate hx with rfl; simp)
    (by intro k hk; rw [getD_replicate_zero]) h
  refine ⟨g1, ?_, ?_⟩
  · rw [g3, countP_replicate_zero]
    omega
  · intro x hx hxne
    rcases g2 x hx with rfl | hx1 | hx1
    · exact absurd rfl hxne
    · exact Or.inl hx1
    · exact Or.inr hx1

/-- The all-zero byte stream: every draw is the byte `0`. -/
def zeroStream : Nat → Nat := fun _ => 0

/-- The concrete challenge produced from the all-zero stream. -/
def challengeW : List Nat := (sampleChallenge zeroStream 39 1).getD []

set_option maxRecDepth 40000 in
/-- Witness for C5 at `τ = 39` on the all-zero stream. -/
theorem claim_C5_witness :
    (39 = 39 ∨ 39 = 49 ∨ 39 = 60) ∧
    sampleChallenge zeroStream 39 1 = some challengeW ∧
    (challengeW.length = 256 ∧ challengeW.countP pNZ = 39 ∧
      ∀ x ∈ challengeW, x ≠ 0 → x = 1 ∨ x = q - 1) :=
  ⟨Or.inl rfl, rfl,
   claim_C5 zeroStream 39 1 (Or.inl rfl) challengeW rfl⟩

/-! ## η-encodings (source: `unpackEta2`, `unpackEta4` in pack.go).

The unpackers read `b` in chunks (3 bytes → eight 3-bit fields for
η = 2; 4 bytes → eight 4-bit nibbles for η = 4), assemble the
little-endian word `x` (disjoint-field `|` is `+`), reject the chunk via
a bit trick when some field is out of range, and otherwise decode the
fields as `fieldSub η field`. -/

theorem ne_zero_iff_testBit (n : Nat) : n ≠ 0 ↔ ∃ i, n.testBit i = true := by
  constructor
  · intro h
    by_contra hno
    push_neg at hno
    exact h (Nat.eq_of_testBit_eq (fun i => by
      rw [Nat.zero_testBit]
      exact Bool.not_eq_true _ |>.mp (hno i)))
  · rintro ⟨i, hi⟩ rfl
    rw [Nat.zero_testBit] at hi
    exact Bool.false_ne_true hi

theorem testBit_mask2 (p : Nat) :
    (0o44444444 : Nat).testBit p = (decide (p % 3 = 2) && decide (p < 24)) := by
  by_cases hp : p < 24
  · interval_cases p <;> decide
  · rw [Nat.testBit_eq_false_of_lt
      (lt_of_lt_of_le (by decide) (Nat.pow_le_pow_right (by norm_num)
        (Nat.le_of_not_lt hp)))]
    simp [Nat.lt_of_lt_of_le, hp]

theorem testBit_mask4 (p : Nat) :
    (0x88888888 : Nat).testBit p = (decide (p % 4 = 3) && decide (p < 32)) := by
  by_cases hp : p < 32
  · interval_cases p <;> decide
  · rw [Nat.testBit_eq_false_of_lt
      (lt_of_lt_of_le (by decide) (Nat.pow_le_pow_right (by norm_num)
        (Nat.le_of_not_lt hp)))]
    simp [hp]

theorem testBit_field3 (x j c : Nat) (hc : c < 3) :
    (x >>> (3 * j) &&& 7).testBit c = x.testBit (3 * j + c) := by
  rw [Nat.testBit_land, Nat.testBit_shiftRight]
  have h7 : (7 : Nat).testBit c = true := by interval_cases c <;> decide
  simp [h7]

theorem testBit_field4 (x j c : Nat) (hc : c < 4) :
    (x >>> (4 * j) &&& 15).testBit c = x.testBit (4 * j + c) := by
  rw [Nat.testBit_land, Nat.testBit_shiftRight]
  have h15 : (15 : Nat).testBit c = true := by interval_cases c <;> decide
  simp [h15]

theorem field3_ge5 (g : Nat) (hg : g < 8) :
    5 ≤ g ↔ (g.testBit 2 = true ∧ (g.testBit 0 = true ∨ g.testBit 1 = true)) := by
  interval_cases g <;> decide

theorem field4_ge9 (g : Nat) (hg : g < 16) :
    9 ≤ g ↔ (g.testBit 3 = true ∧
      (g.testBit 0 = true ∨ g.testBit 1 = true ∨ g.testBit 2 = true)) := by
  interval_cases g <;> decide

theorem eta2Chunk_iff (x : Nat) :
    ((x &&& 0o44444444) >>> 1 ||| (x &&& 0o44444444) >>> 2) &&& x ≠ 0 ↔
      ∃ j, j < 8 ∧ 5 ≤ x >>> (3 * j) &&& 7 := by
  rw [ne_zero_iff_testBit]
  constructor
  · rintro ⟨i, hi⟩
    rw [Nat.testBit_land, Nat.testBit_lor, Nat.testBit_shiftRight,
      Nat.testBit_shiftRight, Nat.testBit_land, Nat.testBit_land,
      testBit_mask2, testBit_mask2] at hi
    simp only [Bool.and_eq_true, Bool.or_eq_true, decide_eq_true_eq] at hi
    obtain ⟨hor, hxi⟩ := hi
    rcases hor with ⟨hx1, h1m, h1lt⟩ | ⟨hx2, h2m, h2lt⟩
    · refine ⟨i / 3, by omega, ?_⟩
      rw [field3_ge5 _ (Nat.lt_of_le_of_lt Nat.and_le_right (by norm_num))]
      constructor
      · rw [testBit_field3 _ _ 2 (by norm_num),
          show 3 * (i / 3) + 2 = 1 + i by omega]
        exact hx1
      · right
        rw [testBit_field3 _ _ 1 (by norm_num),
          show 3 * (i / 3) + 1 = i by omega]
        exact hxi
    · refine ⟨i / 3, by omega, ?_⟩
      rw [field3_ge5 _ (Nat.lt_of_le_of_lt Nat.and_le_right (by norm_num))]
      constructor
      · rw [testBit_field3 _ _ 2 (by norm_num),
          show 3 * (i / 3) + 2 = 2 + i by omega]
        exact hx2
      · left
        rw [testBit_field3 _ _ 0 (by norm_num),
          show 3 * (i / 3) + 0 = i by omega]
        exact hxi
  · rintro ⟨j, hj8, hge⟩
    rw [field3_ge5 _ (Nat.lt_of_le_of_lt Nat.and_le_right (by norm_num))] at hge
    obtain ⟨hb2, hb01⟩ := hge
    rw [testBit_field3 _ _ 2 (by norm_num)] at hb2
    rcases hb01 with hb0 | hb1
    · refine ⟨3 * j, ?_⟩
      rw [testBit_field3 _ _ 0 (by norm_num)] at hb0
      rw [Nat.testBit_land, Nat.testBit_lor, Nat.testBit_shiftRight,
        Nat.testBit_shiftRight, Nat.testBit_land, Nat.testBit_land,
        testBit_mask2, testBit_mask2]
      simp only [Bool.and_eq_true, Bool.or_eq_true, decide_eq_true_eq]
      refine ⟨Or.inr ⟨?_, by omega, by omega⟩, ?_⟩
      · rw [show 2 + 3 * j = 3 * j + 2 by omega]
        exact hb2
      · rw [show 3 * j = 3 * j + 0 by omega]
        exact hb0
    · refine ⟨3 * j + 1, ?_⟩
      rw [testBit_field3 _ _ 1 (by norm_num)] at hb1
      rw [Nat.testBit_land, Nat.testBit_lor, Nat.testBit_shiftRight,
        Nat.testBit_shiftRight, Nat.testBit_land, Nat.testBit_land,
        testBit_mask2, testBit_mask2]
      simp only [Bool.and_eq_true, Bool.or_eq_true, decide_eq_true_eq]
      refine ⟨Or.inl ⟨?_, by omega, by omega⟩, hb1⟩
      rw [show 1 + (3 * j + 1) = 3 * j + 2 by omega]
      exact hb2

theorem eta4Chunk_iff (x : Nat) :
    ((x &&& 0x88888888) >>> 1 ||| (x &&& 0x88888888) >>> 2 |||
        (x &&& 0x88888888) >>> 3) &&& x ≠ 0 ↔
      ∃ j, j < 8 ∧ 9 ≤ x >>> (4 * j) &&& 15 := by
  rw [ne_zero_iff_testBit]
  constructor
  · rintro ⟨i, hi⟩
    rw [Nat.testBit_land, Nat.testBit_lor, Nat.testBit_lor,
      Nat.testBit_shiftRight, Nat.testBit_shiftRight, Nat.testBit_shiftRight,
      Nat.testBit_land, Nat.testBit_land, Nat.testBit_land,
      testBit_mask4, testBit_mask4, testBit_mask4] at hi
    simp only [Bool.and_eq_true, Bool.or_eq_true, decide_eq_true_eq] at hi
    obtain ⟨hor, hxi⟩ := hi
    have hlt16 : x >>> (4 * (i / 4)) &&& 15 < 16 :=
      Nat.lt_of_le_of_lt Nat.and_le_right (by norm_num)
    rcases hor with (⟨hx1, h1m, h1lt⟩ | ⟨hx2, h2m, h2lt⟩) | ⟨hx3, h3m, h3lt⟩
    · refine ⟨i / 4, by omega, ?_⟩
      rw [field4_ge9 _ hlt16]
      refine ⟨?_, Or.inr (Or.inr ?_)⟩
      · rw [testBit_field4 _ _ 3 (by norm_num),
          show 4 * (i / 4) + 3 = 1 + i by omega]
        exact hx1
      · rw [testBit_field4 _ _ 2 (by norm_num),
          show 4 * (i / 4) + 2 = i by omega]
        exact hxi
    · refine ⟨i / 4, by omega, ?_⟩
      rw [field4_ge9 _ hlt16]
      refine ⟨?_, Or.inr (Or.inl ?_)⟩
      · rw [testBit_field4 _ _ 3 (by norm_num),
          show 4 * (i / 4) + 3 = 2 + i by omega]
        exact hx2
      · rw [testBit_field4 _ _ 1 (by norm_num),
          show 4 * (i / 4) + 1 = i by omega]
        exact hxi
    · refine ⟨i / 4, by omega, ?_⟩
      rw [field4_ge9 _ hlt16]
      refine ⟨?_, Or.inl ?_⟩
      · rw [testBit_field4 _ _ 3 (by norm_num),
          show 4 * (i / 4) + 3 = 3 + i by omega]
        exact hx3
      · rw [testBit_field4 _ _ 0 (by norm_num),
          show 4 * (i / 4) + 0 = i by omega]
        exact hxi
  · rintro ⟨j, hj8, hge⟩
    have hlt16 : x >>> (4 * j) &&& 15 < 16 :=
      Nat.lt_of_le_of_lt Nat.and_le_right (by norm_num)
    rw [field4_ge9 _ hlt16] at hge
    obtain ⟨hb3, hb012⟩ := hge
    rw [testBit_field4 _ _ 3 (by norm_num)] at hb3
    rcases hb012 with hb0 | hb1 | hb2
    · refine ⟨4 * j, ?_⟩
      rw [testBit_field4 _ _ 0 (by norm_num)] at hb0
      rw [Nat.testBit_land, Nat.testBit_lor, Nat.testBit_lor,
        Nat.testBit_shiftRight, Nat.testBit_shiftRight,
        Nat.testBit_shiftRight, Nat.testBit_land, Nat.testBit_land,
        Nat.testBit_land, testBit_mask4, testBit_mask4, testBit_mask4]
      simp only [Bool.and_eq_true, Bool.or_eq_true, decide_eq_true_eq]
      refine ⟨Or.inr ⟨?_, by omega, by omega⟩, ?_⟩
      · rw [show 3 + 4 * j = 4 * j + 3 by omega]
        exact hb3
      · rw [show 4 * j = 4 * j + 0 by omega]
        exact hb0
    · refine ⟨4 * j + 1, ?_⟩
      rw [testBit_field4 _ _ 1 (by norm_num)] at hb1
      rw [Nat.testBit_land, Nat.testBit_lor, Nat.testBit_lor,
        Nat.testBit_shiftRight, Nat.testBit_shiftRight,
        Nat.testBit_shiftRight, Nat.testBit_land, Nat.testBit_land,
        Nat.testBit_land, testBit_mask4, testBit_mask4, testBit_mask4]
      simp only [Bool.and_eq_true, Bool.or_eq_true, decide_eq_true_eq]
      refine ⟨Or.inl (Or.inr ⟨?_, by omega, by omega⟩), hb1⟩
      rw [show 2 + (4 * j + 1) = 4 * j + 3 by omega]
      exact hb3
    · refine ⟨4 * j + 2, ?_⟩
      rw [testBit_field4 _ _ 2 (by norm_num)] at hb2
      rw [Nat.testBit_land, Nat.testBit_lor, Nat.testBit_lor,
        Nat.testBit_shiftRight, Nat.testBit_shiftRight,
        Nat.testBit_shiftRight, Nat.testBit_land, Nat.testBit_land,
        Nat.testBit_land, testBit_mask4, testBit_mask4, testBit_mask4]
      simp only [Bool.and_eq_true, Bool.or_eq_true, decide_eq_true_eq]
      refine ⟨Or.inl (Or.inl ⟨?_, by omega, by omega⟩), hb2⟩
      rw [show 1 + (4 * j + 2) = 4 * j + 3 by omega]
      exact hb3

/-- The 24-bit word `x := b[0] | b[1]<<8 | b[2]<<16` read by `unpackEta2`. -/
def chunkX2 (b : List Nat) : Nat :=
  b.getD 0 0 + b.getD 1 0 * 2 ^ 8 + b.getD 2 0 * 2 ^ 16

/-- The 32-bit word `x := b[0] | b[1]<<8 | b[2]<<16 | b[3]<<24` read by `unpackEta4`. -/
def chunkX4 (b : List Nat) : Nat :=
  b.getD 0 0 + b.getD 1 0 * 2 ^ 8 + b.getD 2 0 * 2 ^ 16 + b.getD 3 0 * 2 ^ 24

def unpackEta2Chunks : Nat → List Nat → Option (List Nat)
  | 0, _ => some []
  | Nat.succ m, b =>
      let x := chunkX2 b
      if ((x &&& 0o44444444) >>> 1 ||| (x &&& 0o44444444) >>> 2) &&& x ≠ 0 then
        none
      else
        (unpackEta2Chunks m (b.drop 3)).map
          (fun rest =>
            (List.range 8).map (fun j => fieldSub 2 (x >>> (3 * j) &&& 7)) ++ rest)

def unpackEta2 (b : List Nat) : Option (List Nat) := unpackEta2Chunks 32 b

def unpackEta4Chunks : Nat → List Nat → Option (List Nat)
  | 0, _ => some []
  | Nat.succ m, b =>
      let x := chunkX4 b
      if ((x &&& 0x88888888) >>> 1 ||| (x &&& 0x88888888) >>> 2 |||
          (x &&& 0x88888888) >>> 3) &&& x ≠ 0 then
        none
      else
        (unpackEta4Chunks m (b.drop 4)).map
          (fun rest =>
            (List.range 8).map (fun j => fieldSub 4 (x >>> (4 * j) &&& 15)) ++ rest)

def unpackEta4 (b : List Nat) : Option (List Nat) := unpackEta4Chunks 32 b

/-- The 3-bit field of coefficient `c` in the η = 2 encoding. -/
def etaField2 (b : List Nat) (c : Nat) : Nat :=
  (b.getD (c / 8 * 3) 0 + b.getD (c / 8 * 3 + 1) 0 * 2 ^ 8 +
    b.getD (c / 8 * 3 + 2) 0 * 2 ^ 16) >>> (3 * (c % 8)) &&& 7

/-- The 4-bit nibble of coefficient `c` in the η = 4 encoding. -/
def etaField4 (b : List Nat) (c : Nat) : Nat :=
  (b.getD (c / 8 * 4) 0 + b.getD (c / 8 * 4 + 1) 0 * 2 ^ 8 +
    b.getD (c / 8 * 4 + 2) 0 * 2 ^ 16 + b.getD (c / 8 * 4 + 3) 0 * 2 ^ 24)
    >>> (4 * (c % 8)) &&& 15

theorem getD_drop (b : List Nat) (n m : Nat) :
    (b.drop n).getD m 0 = b.getD (n + m) 0 := by
  simp [List.getD, List.getElem?_drop]

theorem etaField2_small (b : List Nat) (c : Nat) (hc : c < 8) :
    etaField2 b c =
      (b.getD 0 0 + b.getD 1 0 * 2 ^ 8 + b.getD 2 0 * 2 ^ 16)
        >>> (3 * c) &&& 7 := by
  unfold etaField2
  rw [show c / 8 = 0 by omega, show c % 8 = c by omega]

theorem etaField2_drop (b : List Nat) (c : Nat) (hc : 8 ≤ c) :
    etaField2 (b.drop 3) (c - 8) = etaField2 b c := by
  unfold etaField2
  rw [getD_drop, getD_drop, getD_drop,
    show 3 + (c - 8) / 8 * 3 = c / 8 * 3 by omega,
    show 3 + ((c - 8) / 8 * 3 + 1) = c / 8 * 3 + 1 by omega,
    show 3 + ((c - 8) / 8 * 3 + 2) = c / 8 * 3 + 2 by omega,
    show (c - 8) % 8 = c % 8 by omega]

theorem etaField4_small (b : List Nat) (c : Nat) (hc : c < 8) :
    etaField4 b c =
      (b.getD 0 0 + b.getD 1 0 * 2 ^ 8 + b.getD 2 0 * 2 ^ 16 +
        b.getD 3 0 * 2 ^ 24) >>> (4 * c) &&& 15 := by
  unfold etaField4
  rw [show c / 8 = 0 by omega, show c % 8 = c by omega]

theorem etaField4_drop (b : List Nat) (c : Nat) (hc : 8 ≤ c) :
    etaField4 (b.drop 4) (c - 8) = etaField4 b c := by
  unfold etaField4
  rw [getD_drop, getD_drop, getD_drop, getD_drop,
    show 4 + (c - 8) / 8 * 4 = c / 8 * 4 by omega,
    show 4 + ((c - 8) / 8 * 4 + 1) = c / 8 * 4 + 1 by omega,
    show 4 + ((c - 8) / 8 * 4 + 2) = c / 8 * 4 + 2 by omega,
    show 4 + ((c - 8) / 8 * 4 + 3) = c / 8 * 4 + 3 by omega,
    show (c - 8) % 8 = c % 8 by omega]

theorem getD_range_map (fn : Nat → Nat) (c n : Nat) (hc : c < n) :
    ((List.range n).map fn).getD c 0 = fn c := by
  rw [List.getD_eq_getElem _ _ (by simp [hc])]
  simp [hc]

theorem getD_append_lt (l1 l2 : List Nat) (c : Nat) (h : c < l1.length) :
    (l1 ++ l2).getD c 0 = l1.getD c 0 := by
  simp [List.getD, List.getElem?_append_left h]

theorem getD_append_ge (l1 l2 : List Nat) (c : Nat) (h : l1.length ≤ c) :
    (l1 ++ l2).getD c 0 = l2.getD (c - l1.length) 0 := by
  simp [List.getD, List.getElem?_append_right h]

theorem etaField2_chunk (b : List Nat) (c : Nat) (hc : c < 8) :
    etaField2 b c = chunkX2 b >>> (3 * c) &&& 7 := by
  rw [etaField2_small b c hc]; rfl

theorem etaField4_chunk (b : List Nat) (c : Nat) (hc : c < 8) :
    etaField4 b c = chunkX4 b >>> (4 * c) &&& 15 := by
  rw [etaField4_small b c hc]; rfl

theorem unpackEta2Chunks_ok : ∀ m b,
    (unpackEta2Chunks m b = none ↔ ∃ c, c < 8 * m ∧ 5 ≤ etaField2 b c) ∧
    ∀ f, unpackEta2Chunks m b = some f →
      f.length = 8 * m ∧ ∀ c, c < 8 * m → f.getD c 0 = fieldSub 2 (etaField2 b c) := by
  intro m
  induction m with
  | zero =>
    intro b
    refine ⟨by simp [unpackEta2Chunks], ?_⟩
    intro f hf
    simp only [unpackEta2Chunks, Option.some.injEq] at hf
    subst hf
    exact ⟨by simp, fun c hc => absurd hc (by omega)⟩
  | succ m ih =>
    intro b
    obtain ⟨ihn, ihs⟩ := ih (b.drop 3)
    simp only [unpackEta2Chunks]
    by_cases hbad :
        ((chunkX2 b &&& 0o44444444) >>> 1 ||| (chunkX2 b &&& 0o44444444) >>> 2) &&&
          chunkX2 b ≠ 0
    · rw [if_pos hbad]
      obtain ⟨j, hj, hge⟩ := (eta2Chunk_iff (chunkX2 b)).mp hbad
      refine ⟨⟨fun _ => ⟨j, by omega, ?_⟩, fun _ => rfl⟩,
        fun f hf => absurd hf (by simp)⟩
      rw [etaField2_chunk b j hj]
      exact hge
    · rw [if_neg hbad]
      have hgood : ∀ c, c < 8 → ¬ 5 ≤ etaField2 b c := by
        intro c hc hge
        exact hbad ((eta2Chunk_iff (chunkX2 b)).mpr
          ⟨c, hc, by rw [← etaField2_chunk b c hc]; exact hge⟩)
      cases hrec : unpackEta2Chunks m (b.drop 3) with
      | none =>
        refine ⟨⟨fun _ => ?_, fun _ => rfl⟩, fun f hf => absurd hf (by simp)⟩
        obtain ⟨c, hcm, hcge⟩ := ihn.mp hrec
        refine ⟨c + 8, by omega, ?_⟩
        rw [← etaField2_drop b (c + 8) (by omega)]
        simpa using hcge
      | some rest =>
        obtain ⟨hlen, hget⟩ := ihs rest hrec
        constructor
        · refine iff_of_false (by simp) ?_
          rintro ⟨c, hcm, hcge⟩
          rcases Nat.lt_or_ge c 8 with hc8 | hc8
          · exact hgood c hc8 hcge
          · have hnone : unpackEta2Chunks m (b.drop 3) = none :=
              ihn.mpr ⟨c - 8, by omega, by rw [etaField2_drop b c hc8]; exact hcge⟩
            rw [hrec] at hnone
            simp at hnone
        · intro f hf
          simp only [Option.map_some', Option.some.injEq] at hf
          subst hf
          constructor
          · rw [List.length_append, List.length_map, List.length_range, hlen]
            omega
          · intro c hc
            rcases Nat.lt_or_ge c 8 with hc8 | hc8
            · rw [getD_append_lt _ _ c (by simpa using hc8),
                getD_range_map _ c 8 hc8, etaField2_chunk b c hc8]
            · rw [getD_append_ge _ _ c (by simpa using hc8)]
              simp only [List.length_map, List.length_range]
              rw [hget (c - 8) (by omega), etaField2_drop b c hc8]

theorem unpackEta4Chunks_ok : ∀ m b,
    (unpackEta4Chunks m b = none ↔ ∃ c, c < 8 * m ∧ 9 ≤ etaField4 b c) ∧
    ∀ f, unpackEta4Chunks m b = some f →
      f.length = 8 * m ∧ ∀ c, c < 8 * m → f.getD c 0 = fieldSub 4 (etaField4 b c) := by
  intro m
  induction m with
  | zero =>
    intro b
    refine ⟨by simp [unpackEta4Chunks], ?_⟩
    intro f hf
    simp only [unpackEta4Chunks, Option.some.injEq] at hf
    subst hf
    exact ⟨by simp, fun c hc => absurd hc (by omega)⟩
  | succ m ih =>
    intro b
    obtain ⟨ihn, ihs⟩ := ih (b.drop 4)
    simp only [unpackEta4Chunks]
    by_cases hbad :
        ((chunkX4 b &&& 0x88888888) >>> 1 ||| (chunkX4 b &&& 0x88888888) >>> 2 |||
          (chunkX4 b &&& 0x88888888) >>> 3) &&& chunkX4 b ≠ 0
    · rw [if_pos hbad]
      obtain ⟨j, hj, hge⟩ := (eta4Chunk_iff (chunkX4 b)).mp hbad
      refine ⟨⟨fun _ => ⟨j, by omega, ?_⟩, fun _ => rfl⟩,
        fun f hf => absurd hf (by simp)⟩
      rw [etaField4_chunk b j hj]
      exact hge
    · rw [if_neg hbad]
      have hgood : ∀ c, c < 8 → ¬ 9 ≤ etaField4 b c := by
        intro c hc hge
        exact hbad ((eta4Chunk_iff (chunkX4 b)).mpr
          ⟨c, hc, by rw [← etaField4_chunk b c hc]; exact hge⟩)
      cases hrec : unpackEta4Chunks m (b.drop 4) with
      | none =>
        refine ⟨⟨fun _ => ?_, fun _ => rfl⟩, fun f hf => absurd hf (by simp)⟩
        obtain ⟨c, hcm, hcge⟩ := ihn.mp hrec
        refine ⟨c + 8, by omega, ?_⟩
        rw [← etaField4_drop b (c + 8) (by omega)]
        simpa using hcge
      | some rest =>
        obtain ⟨hlen, hget⟩ := ihs rest hrec
        constructor
        · refine iff_of_false (by simp) ?_
          rintro ⟨c, hcm, hcge⟩
          rcases Nat.lt_or_ge c 8 with hc8 | hc8
          · exact hgood c hc8 hcge
          · have hnone : unpackEta4Chunks m (b.drop 4) = none :=
              ihn.mpr ⟨c - 8, by omega, by rw [etaField4_drop b c hc8]; exact hcge⟩
            rw [hrec] at hnone
            simp at hnone
        · intro f hf
          simp only [Option.map_some', Option.some.injEq] at hf
          subst hf
          constructor
          · rw [List.length_append, List.length_map, List.length_range, hlen]
            omega
          · intro c hc
            rcases Nat.lt_or_ge c 8 with hc8 | hc8
            · rw [getD_append_lt _ _ c (by simpa using hc8),
                getD_range_map _ c 8 hc8, etaField4_chunk b c hc8]
            · rw [getD_append_ge _ _ c (by simpa using hc8)]
              simp only [List.length_map, List.length_range]
              rw [hget (c - 8) (by omega), etaField4_drop b c hc8]

/-- **C6.** `unpackEta2` returns the invalid-encoding error (modelled as `none`)
iff some 3-bit coefficient field of its 96-byte input has value ≥ 5, and
`unpackEta4` errors iff some 4-bit nibble of its 128-byte input has value ≥ 9;
otherwise each returns the 256-coefficient polynomial with coefficients
`fieldSub 2 z` (resp. `fieldSub 4 z`), i.e. 2−z (resp. 4−z) reduced mod q. -/
theorem claim_C6 (b2 b4 : List Nat) (h2 : b2.length = 96) (h4 : b4.length = 128) :
    ((unpackEta2 b2 = none ↔ ∃ c, c < 256 ∧ 5 ≤ etaField2 b2 c) ∧
      ∀ f, unpackEta2 b2 = some f →
        f.length = 256 ∧ ∀ c, c < 256 → f.getD c 0 = fieldSub 2 (etaField2 b2 c)) ∧
    ((unpackEta4 b4 = none ↔ ∃ c, c < 256 ∧ 9 ≤ etaField4 b4 c) ∧
      ∀ f, unpackEta4 b4 = some f →
        f.length = 256 ∧ ∀ c, c < 256 → f.getD c 0 = fieldSub 4 (etaField4 b4 c)) :=
  ⟨unpackEta2Chunks_ok 32 b2, unpackEta4Chunks_ok 32 b4⟩

/-- Witness for C6 at the all-zero 96- and 128-byte inputs. -/
theorem claim_C6_witness :
    (List.replicate 96 0).length = 96 ∧ (List.replicate 128 0).length = 128 ∧
    (((unpackEta2 (List.replicate 96 0) = none ↔
        ∃ c, c < 256 ∧ 5 ≤ etaField2 (List.replicate 96 0) c) ∧
      ∀ f, unpackEta2 (List.replicate 96 0) = some f →
        f.length = 256 ∧
          ∀ c, c < 256 → f.getD c 0 = fieldSub 2 (etaField2 (List.replicate 96 0) c)) ∧
    ((unpackEta4 (List.replicate 128 0) = none ↔
        ∃ c, c < 256 ∧ 9 ≤ etaField4 (List.replicate 128 0) c) ∧
      ∀ f, unpackEta4 (List.replicate 128 0) = some f →
        f.length = 256 ∧
          ∀ c, c < 256 → f.getD c 0 = fieldSub 4 (etaField4 (List.replicate 128 0) c))) :=
  ⟨by simp, by simp, claim_C6 _ _ (by simp) (by simp)⟩

/-! ### C7: hint packing (`packHint` / `unpackHint`, src/unnamed/part_003) -/

/-- The positions `j` (in increasing scan order `j = 0..255`) where a hint row is
nonzero; `packHint`'s inner loop emits exactly these bytes. -/
def rowPositions (row : List Nat) : List Nat :=
  (List.range 256).filter (fun j => row.getD j 0 != 0)

/-- The position bytes written by `packHint`: row by row, in scan order. -/
def hintPositions : List (List Nat) → List Nat
  | [] => []
  | row :: rest => rowPositions row ++ hintPositions rest

/-- The cumulative-count bytes `b[omega+i] = byte(idx)` written by `packHint`;
`c` is the running `idx` entering the current row. -/
def hintCounts : List (List Nat) → Nat → List Nat
  | [], _ => []
  | row :: rest, c =>
      (c + (rowPositions row).length) % 256 ::
        hintCounts rest (c + (rowPositions row).length)

/-- `packHint`: position bytes, then zero padding up to `omega` (the buffer is
zero-initialised and slots `[idx, omega)` are never written), then the `k`
cumulative-count bytes. -/
def packHint (hints : List (List Nat)) (omega : Nat) : List Nat :=
  hintPositions hints ++
    List.replicate (omega - (hintPositions hints).length) 0 ++ hintCounts hints 0

/-- Inner loop of `unpackHint` for one row: reads `count` position bytes starting
at `idx` (with `prev` the value of `idx` on row entry), enforcing the strictly
increasing check `!(idx > prev && b[idx-1] >= pos)`, setting `row[pos] = 1`. -/
def unpackRowLoop (b : List Nat) (prev : Nat) : Nat → Nat → List Nat → Option (List Nat)
  | 0, _, row => some row
  | Nat.succ count, idx, row =>
      let pos := b.getD idx 0
      if prev < idx ∧ pos ≤ b.getD (idx - 1) 0 then none
      else unpackRowLoop b prev count (idx + 1) (row.set pos 1)

/-- Outer loop of `unpackHint` over rows `i, i+1, …` (`kk` rows remaining),
threading the running `idx`; returns the decoded rows and the final `idx`. -/
def unpackHintRows (b : List Nat) (omega : Nat) :
    Nat → Nat → Nat → Option (List (List Nat) × Nat)
  | 0, _, idx => some ([], idx)
  | Nat.succ kk, i, idx =>
      let limit := b.getD (omega + i) 0
      if limit < idx ∨ omega < limit then none
      else
        (unpackRowLoop b idx (limit - idx) idx (List.replicate 256 0)).bind
          (fun row =>
            (unpackHintRows b omega kk (i + 1) limit).map
              (fun p => (row :: p.1, p.2)))

/-- `unpackHint` on `k` fresh zero rows: run the row loops, then require the
remaining slots `[idx, omega)` to be zero; `none` models `return false`. -/
def unpackHint (b : List Nat) (k omega : Nat) : Option (List (List Nat)) :=
  (unpackHintRows b omega k 0 0).bind
    (fun p =>
      if (List.range (omega - p.2)).all (fun t => b.getD (p.2 + t) 0 == 0) then
        some p.1
      else none)

/-- Setting 1 at each position in `ps` (how the unpacked row is built). -/
def setOnes (row : List Nat) (ps : List Nat) : List Nat :=
  ps.foldl (fun r p => r.set p 1) row

theorem rowPositions_pairwise (row : List Nat) :
    List.Pairwise (· < ·) (rowPositions row) :=
  (List.pairwise_lt_range 256).sublist (List.filter_sublist _)

theorem rowPositions_lt (row : List Nat) :
    ∀ p ∈ rowPositions row, p < 256 := by
  intro p hp
  have := List.mem_filter.mp hp
  exact List.mem_range.mp this.1

theorem mem_rowPositions (row : List Nat) (c : Nat) :
    c ∈ rowPositions row ↔ c < 256 ∧ row.getD c 0 ≠ 0 := by
  unfold rowPositions
  rw [List.mem_filter, List.mem_range]
  simp

theorem setOnes_length (row : List Nat) :
    ∀ ps, (setOnes row ps).length = row.length := by
  intro ps
  induction ps generalizing row with
  | nil => rfl
  | cons p ps ih =>
    show (setOnes (row.set p 1) ps).length = row.length
    rw [ih (row.set p 1), List.length_set]

theorem setOnes_getD (ps : List Nat) :
    ∀ row : List Nat, row.length = 256 → (∀ p ∈ ps, p < 256) → ∀ c,
      (setOnes row ps).getD c 0 = if c ∈ ps then 1 else row.getD c 0 := by
  induction ps with
  | nil => intro row _ _ c; simp [setOnes]
  | cons p ps ih =>
    intro row hlen hlt c
    show (setOnes (row.set p 1) ps).getD c 0 = _
    rw [ih (row.set p 1) (by rw [List.length_set]; exact hlen)
      (fun x hx => hlt x (List.mem_cons_of_mem p hx)) c]
    by_cases hc : c ∈ ps
    · rw [if_pos hc, if_pos (List.mem_cons_of_mem p hc)]
    · rw [if_neg hc]
      by_cases hcp : c = p
      · subst hcp
        rw [getD_set_self row c 1 (by rw [hlen]; exact hlt c (List.mem_cons_self c ps)),
          if_pos (List.mem_cons_self c ps)]
      · rw [getD_set_ne row p c 1 (fun h => hcp h.symm),
          if_neg (by simp [hcp, hc])]

theorem setOnes_rowPositions (row : List Nat) (hlen : row.length = 256)
    (hbit : ∀ c, c < 256 → row.getD c 0 = 0 ∨ row.getD c 0 = 1) :
    setOnes (List.replicate 256 0) (rowPositions row) = row := by
  apply List.ext_getElem
  · rw [setOnes_length, List.length_replicate, hlen]
  · intro i h1 h2
    have hi : i < 256 := by
      rw [setOnes_length, List.length_replicate] at h1
      exact h1
    have e1 : (setOnes (List.replicate 256 0) (rowPositions row))[i] =
        (setOnes (List.replicate 256 0) (rowPositions row)).getD i 0 :=
      (List.getD_eq_getElem _ 0 h1).symm
    have e2 : row[i] = row.getD i 0 := (List.getD_eq_getElem _ 0 h2).symm
    rw [e1, e2, setOnes_getD (rowPositions row) (List.replicate 256 0)
      (by rw [List.length_replicate]) (rowPositions_lt row) i]
    by_cases hm : i ∈ rowPositions row
    · rw [if_pos hm]
      have hne := ((mem_rowPositions row i).mp hm).2
      rcases hbit i hi with h0 | h1'
      · exact absurd h0 hne
      · exact h1'.symm
    · rw [if_neg hm, getD_replicate_zero]
      rcases hbit i hi with h0 | h1'
      · exact h0.symm
      · exact absurd ((mem_rowPositions row i).mpr ⟨hi, by rw [h1']; omega⟩) hm

theorem unpackRowLoop_ok : ∀ (ps b : List Nat) (prev idx : Nat) (row : List Nat),
    (∀ t, t < ps.length → b.getD (idx + t) 0 = ps.getD t 0) →
    List.Chain' (· < ·) ps →
    (idx = prev ∨ (prev < idx ∧ (ps = [] ∨ b.getD (idx - 1) 0 < ps.getD 0 0))) →
    unpackRowLoop b prev ps.length idx row = some (setOnes row ps) := by
  intro ps
  induction ps with
  | nil => intro b prev idx row _ _ _; rfl
  | cons p ps ih =>
    intro b prev idx row hseg hchain hfirst
    have hpos : b.getD idx 0 = p := by
      have := hseg 0 (by simp)
      simpa using this
    show unpackRowLoop b prev (ps.length + 1) idx row = _
    simp only [unpackRowLoop]
    rw [if_neg ?hcheck]
    case hcheck =>
      rintro ⟨hlt, hle⟩
      rcases hfirst with heq | ⟨hlt', hor⟩
      · omega
      · rcases hor with hnil | hhd
        · cases hnil
        · rw [hpos] at hle
          have hlt2 : b.getD (idx - 1) 0 < p := by simpa using hhd
          omega
    rw [hpos]
    have hres : setOnes row (p :: ps) = setOnes (row.set p 1) ps := rfl
    rw [hres]
    apply ih b prev (idx + 1) (row.set p 1)
    · intro t ht
      have := hseg (t + 1) (by simpa using Nat.succ_lt_succ ht)
      rw [show idx + 1 + t = idx + (t + 1) by omega]
      simpa using this
    · exact hchain.tail
    · right
      refine ⟨by omega, ?_⟩
      cases ps with
      | nil => exact Or.inl rfl
      | cons q qs =>
        right
        have hpq : p < q := (List.chain'_cons.mp hchain).1
        rw [show idx + 1 - 1 = idx by omega, hpos]
        simpa using hpq

theorem hintCounts_getD : ∀ (hints : List (List Nat)) (c j : Nat), j < hints.length →
    (hintCounts hints c).getD j 0 =
      (c + (hintPositions (hints.take (j + 1))).length) % 256 := by
  intro hints
  induction hints with
  | nil => intro c j hj; exact absurd hj (by simp)
  | cons row rest ih =>
    intro c j hj
    cases j with
    | zero =>
      show ((c + (rowPositions row).length) % 256 :: hintCounts rest _).getD 0 0 = _
      rw [List.getD_cons_zero]
      congr 1
      show c + (rowPositions row).length =
        c + (rowPositions row ++ hintPositions []).length
      rw [List.length_append]
      simp [hintPositions]
    | succ j =>
      show (hintCounts (row :: rest) c).getD (j + 1) 0 = _
      simp only [hintCounts, List.getD_cons_succ]
      rw [ih (c + (rowPositions row).length) j (by simpa using hj)]
      congr 1
      rw [List.take_succ_cons]
      show c + (rowPositions row).length + (hintPositions (rest.take (j + 1))).length =
        c + (rowPositions row ++ hintPositions (rest.take (j + 1))).length
      rw [List.length_append]
      omega

theorem hintPositions_take_le : ∀ (hints : List (List Nat)) (m : Nat),
    (hintPositions (hints.take m)).length ≤ (hintPositions hints).length := by
  intro hints
  induction hints with
  | nil => intro m; simp
  | cons row rest ih =>
    intro m
    cases m with
    | zero => simp [hintPositions]
    | succ m =>
      rw [List.take_succ_cons]
      show (rowPositions row ++ hintPositions (rest.take m)).length ≤
        (rowPositions row ++ hintPositions rest).length
      rw [List.length_append, List.length_append]
      have := ih m
      omega

theorem unpackHintRows_ok : ∀ (hints : List (List Nat)) (b : List Nat) (omega i idx : Nat),
    (∀ row ∈ hints, row.length = 256 ∧
      ∀ c, c < 256 → row.getD c 0 = 0 ∨ row.getD c 0 = 1) →
    (∀ t, t < (hintPositions hints).length →
      b.getD (idx + t) 0 = (hintPositions hints).getD t 0) →
    (∀ j, j < hints.length →
      b.getD (omega + i + j) 0 = idx + (hintPositions (hints.take (j + 1))).length) →
    idx + (hintPositions hints).length ≤ omega →
    unpackHintRows b omega hints.length i idx =
      some (hints, idx + (hintPositions hints).length) := by
  intro hints
  induction hints with
  | nil =>
    intro b omega i idx _ _ _ _
    show some ([], idx) = _
    simp [hintPositions]
  | cons row rest ih =>
    intro b omega i idx hrows hseg hcnt hbound
    have hlenrec : hintPositions (row :: rest) = rowPositions row ++ hintPositions rest := rfl
    have hb' : idx + (rowPositions row).length + (hintPositions rest).length ≤ omega := by
      rw [hlenrec, List.length_append] at hbound
      omega
    have hlim : b.getD (omega + i) 0 = idx + (rowPositions row).length := by
      have := hcnt 0 (by simp)
      rw [Nat.add_zero] at this
      rw [this]
      congr 1
      show (hintPositions [row]).length = (rowPositions row).length
      show (rowPositions row ++ hintPositions []).length = _
      rw [List.length_append]
      simp [hintPositions]
    show unpackHintRows b omega (rest.length + 1) i idx = _
    simp only [unpackHintRows]
    rw [hlim]
    rw [if_neg (by omega)]
    rw [show idx + (rowPositions row).length - idx = (rowPositions row).length by omega]
    have hrowmem := hrows row (List.mem_cons_self row rest)
    have hrow := unpackRowLoop_ok (rowPositions row) b idx idx (List.replicate 256 0)
      (fun t ht => by
        have := hseg t (by rw [hlenrec, List.length_append]; omega)
        rw [this, hlenrec, getD_append_lt _ _ t ht])
      (rowPositions_pairwise row).chain' (Or.inl rfl)
    rw [hrow, setOnes_rowPositions row hrowmem.1 hrowmem.2]
    rw [Option.some_bind]
    have hrec := ih b omega (i + 1) (idx + (rowPositions row).length)
      (fun r hr => hrows r (List.mem_cons_of_mem row hr))
      (fun t ht => by
        have := hseg ((rowPositions row).length + t)
          (by rw [hlenrec, List.length_append]; omega)
        rw [show idx + (rowPositions row).length + t =
          idx + ((rowPositions row).length + t) by omega, this, hlenrec,
          getD_append_ge _ _ _ (by omega)]
        congr 1
        omega)
      (fun j hj => by
        have := hcnt (j + 1) (by simpa using Nat.succ_lt_succ hj)
        rw [show omega + (i + 1) + j = omega + i + (j + 1) by omega, this,
          List.take_succ_cons]
        show idx + (rowPositions row ++ hintPositions (rest.take (j + 1))).length =
          idx + (rowPositions row).length + (hintPositions (rest.take (j + 1))).length
        rw [List.length_append]
        omega)
      hb'
    rw [hrec]
    simp only [Option.map_some']
    rw [hlenrec, List.length_append, Nat.add_assoc]

/-- **C7.** For every k-row hint vector whose rows have 256 coefficients each,
all 0 or 1, with at most `omega ≤ 255` ones in total: `unpackHint` on
`packHint hints omega` succeeds (Go: returns `true`) and reconstructs exactly
`hints`; the packed buffer lists each row's positions in strictly increasing
order; byte `omega + j` is the cumulative one-count through row `j`, which is
at most `omega`; and every unused slot in `[total ones, omega)` is zero. -/
theorem claim_C7 (hints : List (List Nat)) (omega : Nat)
    (hrows : ∀ row ∈ hints, row.length = 256 ∧
      ∀ c, c < 256 → row.getD c 0 = 0 ∨ row.getD c 0 = 1)
    (hones : (hintPositions hints).length ≤ omega)
    (homega : omega ≤ 255) :
    unpackHint (packHint hints omega) hints.length omega = some hints ∧
    (∀ row ∈ hints, List.Pairwise (· < ·) (rowPositions row)) ∧
    (∀ j, j < hints.length →
      (packHint hints omega).getD (omega + j) 0 =
        (hintPositions (hints.take (j + 1))).length ∧
      (hintPositions (hints.take (j + 1))).length ≤ omega) ∧
    ∀ t, (hintPositions hints).length ≤ t → t < omega →
      (packHint hints omega).getD t 0 = 0 := by
  have hlen2 : (hintPositions hints ++
      List.replicate (omega - (hintPositions hints).length) 0).length = omega := by
    rw [List.length_append, List.length_replicate]
    omega
  have hB1 : ∀ t, t < (hintPositions hints).length →
      (packHint hints omega).getD t 0 = (hintPositions hints).getD t 0 := by
    intro t ht
    unfold packHint
    rw [getD_append_lt _ _ t (by rw [hlen2]; omega),
      getD_append_lt _ _ t ht]
  have hB2 : ∀ t, (hintPositions hints).length ≤ t → t < omega →
      (packHint hints omega).getD t 0 = 0 := by
    intro t h1 h2
    unfold packHint
    rw [getD_append_lt _ _ t (by rw [hlen2]; omega),
      getD_append_ge _ _ t h1, getD_replicate_zero]
  have hB3 : ∀ j, j < hints.length →
      (packHint hints omega).getD (omega + j) 0 =
        (hintPositions (hints.take (j + 1))).length := by
    intro j hj
    unfold packHint
    rw [getD_append_ge _ _ _ (by rw [hlen2]; omega), hlen2,
      show omega + j - omega = j by omega,
      hintCounts_getD hints 0 j hj, Nat.zero_add,
      Nat.mod_eq_of_lt (by
        have := hintPositions_take_le hints (j + 1)
        omega)]
  refine ⟨?_, fun row _ => rowPositions_pairwise row,
    fun j hj => ⟨hB3 j hj, by have := hintPositions_take_le hints (j + 1); omega⟩,
    hB2⟩
  unfold unpackHint
  rw [unpackHintRows_ok hints (packHint hints omega) omega 0 0 hrows
    (fun t ht => by rw [Nat.zero_add]; exact hB1 t ht)
    (fun j hj => by rw [Nat.add_zero, Nat.zero_add]; exact hB3 j hj)
    (by omega)]
  rw [Option.some_bind]
  rw [if_pos ?hzero]
  case hzero =>
    rw [List.all_eq_true]
    intro x hx
    rw [beq_iff_eq, Nat.zero_add]
    have hxlt := List.mem_range.mp hx
    exact hB2 ((hintPositions hints).length + x) (by omega) (by omega)

set_option maxRecDepth 200000 in
/-- Witness for C7: one row with a single 1 at position 5, `omega = 80`. -/
theorem claim_C7_witness :
    (∀ row ∈ [(List.replicate 256 0).set 5 1], row.length = 256 ∧
      ∀ c, c < 256 → row.getD c 0 = 0 ∨ row.getD c 0 = 1) ∧
    (hintPositions [(List.replicate 256 0).set 5 1]).length ≤ 80 ∧
    (80 : Nat) ≤ 255 ∧
    unpackHint (packHint [(List.replicate 256 0).set 5 1] 80) 1 80 =
      some [(List.replicate 256 0).set 5 1] :=
  ⟨by decide, by decide, by decide,
    (claim_C7 [(List.replicate 256 0).set 5 1] 80 (by decide) (by decide)
      (by decide)).1⟩

/-! ### C8: public-key codec (`packT1` / `unpackT1` / `NewPublicKey44` / `Bytes`) -/

/-- The 40-bit group `x := b[0] | b[1]<<8 | b[2]<<16 | b[3]<<24 | b[4]<<32`
read by `unpackT1`. -/
def chunkX5 (b : List Nat) : Nat :=
  b.getD 0 0 + b.getD 1 0 * 2 ^ 8 + b.getD 2 0 * 2 ^ 16 + b.getD 3 0 * 2 ^ 24 +
    b.getD 4 0 * 2 ^ 32

/-- `unpackT1`'s loop: each 5-byte group yields four 10-bit coefficients. -/
def unpackT1Chunks : Nat → List Nat → List Nat
  | 0, _ => []
  | Nat.succ m, b =>
      let x := chunkX5 b
      [x &&& 0x3FF, x >>> 10 &&& 0x3FF, x >>> 20 &&& 0x3FF, x >>> 30 &&& 0x3FF] ++
        unpackT1Chunks m (b.drop 5)

def unpackT1 (b : List Nat) : List Nat := unpackT1Chunks 64 b

/-- The 40-bit group `x := f[i] | f[i+1]<<10 | f[i+2]<<20 | f[i+3]<<30`
assembled by `packT1`. -/
def chunkF4 (f : List Nat) : Nat :=
  f.getD 0 0 + f.getD 1 0 * 2 ^ 10 + f.getD 2 0 * 2 ^ 20 + f.getD 3 0 * 2 ^ 30

/-- `packT1`'s loop: four 10-bit coefficients become five bytes (`byte(x>>8k)`). -/
def packT1Chunks : Nat → List Nat → List Nat
  | 0, _ => []
  | Nat.succ m, f =>
      let x := chunkF4 f
      [x % 256, (x >>> 8) % 256, (x >>> 16) % 256, (x >>> 24) % 256,
        (x >>> 32) % 256] ++ packT1Chunks m (f.drop 4)

def packT1 (f : List Nat) : List Nat := packT1Chunks 64 f

/-- The ML-DSA-44 public key fields that `Bytes` serialises: `rho` and the four
`t1` polynomials (`a` and `tr` are derived from these and never serialised). -/
structure PublicKey44 where
  rho : List Nat
  t1 : List (List Nat)

/-- `NewPublicKey44`: length check (PublicKeySize44 = 1312), then
`rho = b[:32]` and `t1[i] = unpackT1(b[32+320i : 32+320(i+1)])`; the only
error return is the length check. -/
def NewPublicKey44 (b : List Nat) : Option PublicKey44 :=
  if b.length = 1312 then
    some ⟨b.take 32,
      [unpackT1 ((b.drop 32).take 320), unpackT1 ((b.drop 352).take 320),
        unpackT1 ((b.drop 672).take 320), unpackT1 ((b.drop 992).take 320)]⟩
  else none

/-- `PublicKey44.Bytes`: `rho` followed by `packT1` of each `t1` polynomial. -/
def pkBytes (pk : PublicKey44) : List Nat :=
  pk.rho ++ packT1 (pk.t1.getD 0 []) ++ packT1 (pk.t1.getD 1 []) ++
    packT1 (pk.t1.getD 2 []) ++ packT1 (pk.t1.getD 3 [])

theorem getD_take (l : List Nat) (n m : Nat) (h : m < n) :
    (l.take n).getD m 0 = l.getD m 0 := by
  simp [List.getD, List.getElem?_take, h]

theorem ext_getD (l1 l2 : List Nat) (hl : l1.length = l2.length)
    (h : ∀ t, t < l1.length → l1.getD t 0 = l2.getD t 0) : l1 = l2 :=
  List.ext_getElem hl (fun i h1 h2 => by
    rw [← List.getD_eq_getElem l1 0 h1, ← List.getD_eq_getElem l2 0 h2]
    exact h i h1)

theorem unpackT1Chunks_succ (m : Nat) (b : List Nat) :
    unpackT1Chunks (m + 1) b =
      [chunkX5 b &&& 0x3FF, chunkX5 b >>> 10 &&& 0x3FF, chunkX5 b >>> 20 &&& 0x3FF,
        chunkX5 b >>> 30 &&& 0x3FF] ++ unpackT1Chunks m (b.drop 5) := rfl

theorem packT1Chunks_cons (m : Nat) (c0 c1 c2 c3 : Nat) (rest : List Nat) :
    packT1Chunks (m + 1) ([c0, c1, c2, c3] ++ rest) =
      [(c0 + c1 * 2 ^ 10 + c2 * 2 ^ 20 + c3 * 2 ^ 30) % 256,
        ((c0 + c1 * 2 ^ 10 + c2 * 2 ^ 20 + c3 * 2 ^ 30) >>> 8) % 256,
        ((c0 + c1 * 2 ^ 10 + c2 * 2 ^ 20 + c3 * 2 ^ 30) >>> 16) % 256,
        ((c0 + c1 * 2 ^ 10 + c2 * 2 ^ 20 + c3 * 2 ^ 30) >>> 24) % 256,
        ((c0 + c1 * 2 ^ 10 + c2 * 2 ^ 20 + c3 * 2 ^ 30) >>> 32) % 256] ++
        packT1Chunks m rest := rfl

theorem packT1_unpackT1_chunks : ∀ m b, (∀ t, t < 5 * m → b.getD t 0 < 256) →
    packT1Chunks m (unpackT1Chunks m b) =
      (List.range (5 * m)).map (fun t => b.getD t 0) := by
  intro m
  induction m with
  | zero => intro b _; rfl
  | succ m ih =>
    intro b hb
    have h0 : b.getD 0 0 < 256 := hb 0 (by omega)
    have h1 : b.getD 1 0 < 256 := hb 1 (by omega)
    have h2 : b.getD 2 0 < 256 := hb 2 (by omega)
    have h3 : b.getD 3 0 < 256 := hb 3 (by omega)
    have h4 : b.getD 4 0 < 256 := hb 4 (by omega)
    have hx : chunkX5 b < 2 ^ 40 := by unfold chunkX5; omega
    rw [unpackT1Chunks_succ, packT1Chunks_cons]
    have hre : (chunkX5 b &&& 0x3FF) + (chunkX5 b >>> 10 &&& 0x3FF) * 2 ^ 10 +
        (chunkX5 b >>> 20 &&& 0x3FF) * 2 ^ 20 +
        (chunkX5 b >>> 30 &&& 0x3FF) * 2 ^ 30 = chunkX5 b := by
      generalize chunkX5 b = X at hx ⊢
      rw [show (0x3FF : Nat) = 2 ^ 10 - 1 from rfl,
        Nat.and_pow_two_sub_one_eq_mod, Nat.and_pow_two_sub_one_eq_mod,
        Nat.and_pow_two_sub_one_eq_mod, Nat.and_pow_two_sub_one_eq_mod,
        Nat.shiftRight_eq_div_pow, Nat.shiftRight_eq_div_pow,
        Nat.shiftRight_eq_div_pow]
      omega
    rw [hre]
    have hbyt : chunkX5 b % 256 = b.getD 0 0 ∧ (chunkX5 b >>> 8) % 256 = b.getD 1 0 ∧
        (chunkX5 b >>> 16) % 256 = b.getD 2 0 ∧ (chunkX5 b >>> 24) % 256 = b.getD 3 0 ∧
        (chunkX5 b >>> 32) % 256 = b.getD 4 0 := by
      unfold chunkX5
      rw [Nat.shiftRight_eq_div_pow, Nat.shiftRight_eq_div_pow,
        Nat.shiftRight_eq_div_pow, Nat.shiftRight_eq_div_pow]
      omega
    rw [hbyt.1, hbyt.2.1, hbyt.2.2.1, hbyt.2.2.2.1, hbyt.2.2.2.2]
    rw [show 5 * (m + 1) = 5 + 5 * m by omega, List.range_add 5 (5 * m),
      List.map_append, List.map_map]
    congr 1
    rw [ih (b.drop 5) (fun t ht => by rw [getD_drop]; exact hb (5 + t) (by omega))]
    exact List.map_congr_left (fun t _ => by
      simp only [Function.comp_apply]
      exact getD_drop b 5 t)

/-- **C8.** For every 1312-byte string (the ML-DSA-44 public-key size, all
entries bytes), `NewPublicKey44` succeeds and `Bytes` of the parsed key is
bit-identical to the input. -/
theorem claim_C8 (b : List Nat) (hlen : b.length = 1312)
    (hbytes : ∀ t, t < 1312 → b.getD t 0 < 256) :
    ∃ pk, NewPublicKey44 b = some pk ∧ pkBytes pk = b := by
  refine ⟨⟨b.take 32,
    [unpackT1 ((b.drop 32).take 320), unpackT1 ((b.drop 352).take 320),
      unpackT1 ((b.drop 672).take 320), unpackT1 ((b.drop 992).take 320)]⟩,
    by unfold NewPublicKey44; rw [if_pos hlen], ?_⟩
  have hseg : ∀ o, o + 320 ≤ 1312 →
      packT1 (unpackT1 ((b.drop o).take 320)) =
        (List.range 320).map (fun t => b.getD (o + t) 0) := by
    intro o ho
    unfold packT1 unpackT1
    rw [packT1_unpackT1_chunks 64 ((b.drop o).take 320) (fun t ht => by
      rw [getD_take _ _ _ (by omega), getD_drop]
      exact hbytes (o + t) (by omega))]
    exact List.map_congr_left (fun t ht => by
      rw [getD_take _ _ _ (List.mem_range.mp ht), getD_drop])
  have hcat : (List.range 320).map (fun t => b.getD (32 + t) 0) ++
      (List.range 320).map (fun t => b.getD (352 + t) 0) ++
      (List.range 320).map (fun t => b.getD (672 + t) 0) ++
      (List.range 320).map (fun t => b.getD (992 + t) 0) = b.drop 32 := by
    apply ext_getD
    · simp [hlen]
    · intro t ht
      have ht' : t < 1280 := by simpa using ht
      rw [getD_drop]
      by_cases hA : t < 320
      · rw [getD_append_lt _ _ t (by simp; omega), getD_append_lt _ _ t (by simp; omega),
          getD_append_lt _ _ t (by simpa using hA), getD_range_map _ t 320 hA]
      · by_cases hB : t < 640
        · rw [getD_append_lt _ _ t (by simp; omega), getD_append_lt _ _ t (by simp; omega),
            getD_append_ge _ _ t (by simp; omega)]
          simp only [List.length_map, List.length_range]
          rw [getD_range_map _ (t - 320) 320 (by omega),
            show 352 + (t - 320) = 32 + t by omega]
        · by_cases hC : t < 960
          · rw [getD_append_lt _ _ t (by simp; omega),
              getD_append_ge _ _ t (by simp; omega)]
            simp only [List.length_append, List.length_map, List.length_range]
            rw [getD_range_map _ (t - 640) 320 (by omega),
              show 672 + (t - 640) = 32 + t by omega]
          · rw [getD_append_ge _ _ t (by simp; omega)]
            simp only [List.length_append, List.length_map, List.length_range]
            rw [getD_range_map _ (t - 960) 320 (by omega),
              show 992 + (t - 960) = 32 + t by omega]
  unfold pkBytes
  simp only [List.getD_cons_zero, List.getD_cons_succ]
  rw [hseg 32 (by omega), hseg 352 (by omega), hseg 672 (by omega),
    hseg 992 (by omega)]
  simp only [List.append_assoc] at hcat ⊢
  rw [hcat, List.take_append_drop]

set_option maxRecDepth 20000 in
/-- Witness for C8 at the all-zero 1312-byte input. -/
theorem claim_C8_witness :
    (List.replicate 1312 0).length = 1312 ∧
    ∃ pk, NewPublicKey44 (List.replicate 1312 0) = some pk ∧
      pkBytes pk = List.replicate 1312 0 :=
  ⟨by simp, claim_C8 (List.replicate 1312 0) (by simp)
    (fun t _ => by rw [getD_replicate_zero]; omega)⟩

/-! ### C9: `Verify` (ML-DSA-44) returns `false` on malformed inputs -/

/-- Cumulative-count reading used while stating `unpackHint`'s invariants:
`cAt idx b omega i 0 = idx` (the running index entering row `i`) and
`cAt idx b omega i (j+1) = b[omega + i + j]`. -/
def cAt (idx : Nat) (b : List Nat) (omega i : Nat) : Nat → Nat
  | 0 => idx
  | j + 1 => b.getD (omega + i + j) 0

/-- The cumulative counts of a packed hint buffer: `hintCum b omega 0 = 0`,
`hintCum b omega (j+1) = b[omega + j]`. -/
def hintCum (b : List Nat) (omega : Nat) : Nat → Nat
  | 0 => 0
  | j + 1 => b.getD (omega + j) 0

/-- The hint-encoding rules, transcribed from the specification: per-row
cumulative counts are non-decreasing and at most `omega`; position bytes within
each row's segment are strictly increasing; all unused slots in
`[hintCum k, omega)` are zero. -/
def HintEncodingValid (b : List Nat) (k omega : Nat) : Prop :=
  (∀ j, j < k → hintCum b omega j ≤ hintCum b omega (j + 1) ∧
    hintCum b omega (j + 1) ≤ omega) ∧
  (∀ j, j < k → ∀ t, hintCum b omega j < t → t < hintCum b omega (j + 1) →
    b.getD (t - 1) 0 < b.getD t 0) ∧
  (∀ t, hintCum b omega k ≤ t → t < omega → b.getD t 0 = 0)

theorem unpackRowLoop_mono : ∀ (count : Nat) (b : List Nat) (prev idx : Nat)
    (row res : List Nat), unpackRowLoop b prev count idx row = some res →
    ∀ t, idx ≤ t → prev < t → t < idx + count → b.getD (t - 1) 0 < b.getD t 0 := by
  intro count
  induction count with
  | zero => intro b prev idx row res h t h1 h2 h3; omega
  | succ count ih =>
    intro b prev idx row res h t h1 h2 h3
    simp only [unpackRowLoop] at h
    by_cases hc : prev < idx ∧ b.getD idx 0 ≤ b.getD (idx - 1) 0
    · rw [if_pos hc] at h; cases h
    · rw [if_neg hc] at h
      by_cases ht : t = idx
      · subst ht
        have hb : ¬ b.getD t 0 ≤ b.getD (t - 1) 0 := fun hb => hc ⟨h2, hb⟩
        omega
      · exact ih b prev (idx + 1) _ res h t (by omega) h2 (by omega)

theorem unpackHintRows_valid : ∀ (kk : Nat) (b : List Nat) (omega i idx : Nat)
    (res : List (List Nat) × Nat),
    unpackHintRows b omega kk i idx = some res →
    (kk = 0 → res.2 = idx) ∧
    (0 < kk → res.2 = b.getD (omega + i + (kk - 1)) 0) ∧
    (∀ j, j < kk → cAt idx b omega i j ≤ cAt idx b omega i (j + 1) ∧
      cAt idx b omega i (j + 1) ≤ omega) ∧
    (∀ j, j < kk → ∀ t, cAt idx b omega i j < t → t < cAt idx b omega i (j + 1) →
      b.getD (t - 1) 0 < b.getD t 0) := by
  intro kk
  induction kk with
  | zero =>
    intro b omega i idx res h
    simp only [unpackHintRows, Option.some.injEq] at h
    subst h
    exact ⟨fun _ => rfl, fun h0 => absurd h0 (by omega),
      fun j hj => absurd hj (by omega), fun j hj => absurd hj (by omega)⟩
  | succ kk ih =>
    intro b omega i idx res h
    simp only [unpackHintRows] at h
    by_cases hc : b.getD (omega + i) 0 < idx ∨ omega < b.getD (omega + i) 0
    · rw [if_pos hc] at h; cases h
    · rw [if_neg hc] at h
      push_neg at hc
      obtain ⟨hc1, hc2⟩ := hc
      rw [Option.bind_eq_some] at h
      obtain ⟨row, hrow, h2⟩ := h
      rw [Option.map_eq_some'] at h2
      obtain ⟨p, hp, hres⟩ := h2
      subst hres
      obtain ⟨ih1, ih2, ih3, ih4⟩ := ih b omega (i + 1) (b.getD (omega + i) 0) p hp
      have hshift : ∀ j, cAt (b.getD (omega + i) 0) b omega (i + 1) j =
          cAt idx b omega i (j + 1) := by
        intro j
        cases j with
        | zero => show b.getD (omega + i) 0 = b.getD (omega + i + 0) 0; rw [Nat.add_zero]
        | succ j' =>
          show b.getD (omega + (i + 1) + j') 0 = b.getD (omega + i + (j' + 1)) 0
          rw [show omega + (i + 1) + j' = omega + i + (j' + 1) by omega]
      refine ⟨fun h0 => absurd h0 (by omega), fun _ => ?_, fun j hj => ?_,
        fun j hj t h1 h2 => ?_⟩
      · cases kk with
        | zero =>
          show p.2 = b.getD (omega + i + 0) 0
          rw [Nat.add_zero]
          exact ih1 rfl
        | succ kk' =>
          show p.2 = b.getD (omega + i + (kk' + 1)) 0
          rw [ih2 (by omega), show omega + (i + 1) + (kk' + 1 - 1) =
            omega + i + (kk' + 1) by omega]
      · cases j with
        | zero =>
          have e : cAt idx b omega i (0 + 1) = b.getD (omega + i) 0 := by
            show b.getD (omega + i + 0) 0 = _
            rw [Nat.add_zero]
          refine ⟨?_, ?_⟩
          · show cAt idx b omega i 0 ≤ _
            rw [e]
            exact hc1
          · rw [e]
            exact hc2
        | succ j' =>
          have hs := ih3 j' (by omega)
          rw [hshift j', hshift (j' + 1)] at hs
          exact hs
      · cases j with
        | zero =>
          have e : cAt idx b omega i (0 + 1) = b.getD (omega + i) 0 := by
            show b.getD (omega + i + 0) 0 = _
            rw [Nat.add_zero]
          have h1' : idx < t := h1
          rw [e] at h2
          exact unpackRowLoop_mono (b.getD (omega + i) 0 - idx) b idx idx
            (List.replicate 256 0) row hrow t (by omega) h1' (by omega)
        | succ j' =>
          exact ih4 j' (by omega) t (by rw [hshift j']; exact h1)
            (by rw [hshift (j' + 1)]; exact h2)

theorem unpackHint_valid (b : List Nat) (k omega : Nat) (hs : List (List Nat))
    (h : unpackHint b k omega = some hs) : HintEncodingValid b k omega := by
  unfold unpackHint at h
  rw [Option.bind_eq_some] at h
  obtain ⟨p, hp, hif⟩ := h
  obtain ⟨hz0, hzp, hmono, hincr⟩ := unpackHintRows_valid k b omega 0 0 p hp
  have hcum : ∀ j, cAt 0 b omega 0 j = hintCum b omega j := by
    intro j
    cases j with
    | zero => rfl
    | succ j' =>
      show b.getD (omega + 0 + j') 0 = b.getD (omega + j') 0
      rw [show omega + 0 + j' = omega + j' by omega]
  have hp2 : p.2 = hintCum b omega k := by
    cases k with
    | zero => rw [hz0 rfl]; rfl
    | succ k' =>
      rw [hzp (by omega)]
      show _ = b.getD (omega + k') 0
      rw [show omega + 0 + (k' + 1 - 1) = omega + k' by omega]
  have hcond : ((List.range (omega - p.2)).all
      (fun t => b.getD (p.2 + t) 0 == 0)) = true := by
    by_cases hcond : ((List.range (omega - p.2)).all
        (fun t => b.getD (p.2 + t) 0 == 0)) = true
    · exact hcond
    · rw [if_neg hcond] at hif; cases hif
  refine ⟨fun j hj => ?_, fun j hj t h1 h2 => ?_, fun t h1 h2 => ?_⟩
  · have := hmono j hj
    rw [hcum j, hcum (j + 1)] at this
    exact this
  · exact hincr j hj t (by rw [hcum j]; exact h1) (by rw [hcum (j + 1)]; exact h2)
  · rw [← hp2] at h1
    have hmem := List.all_eq_true.mp hcond (t - p.2)
      (List.mem_range.mpr (by omega))
    rw [beq_iff_eq, show p.2 + (t - p.2) = t by omega] at hmem
    exact hmem

def gamma1Pow17 : Nat := 2 ^ 17

def beta44 : Nat := 2 * 39

/-- The low 8 bytes `x1` of a 9-byte `packZ17` group. -/
def z17Word1 (b : List Nat) (g : Nat) : Nat :=
  b.getD (9 * g) 0 + b.getD (9 * g + 1) 0 * 2 ^ 8 + b.getD (9 * g + 2) 0 * 2 ^ 16 +
    b.getD (9 * g + 3) 0 * 2 ^ 24 + b.getD (9 * g + 4) 0 * 2 ^ 32 +
    b.getD (9 * g + 5) 0 * 2 ^ 40 + b.getD (9 * g + 6) 0 * 2 ^ 48 +
    b.getD (9 * g + 7) 0 * 2 ^ 56

/-- `unpackZ17Sig`: coefficient `c` of a z polynomial packed 18 bits each,
4 coefficients per 9-byte group. -/
def unpackZ17Sig (b : List Nat) : Nat → Nat := fun c =>
  let x1 := z17Word1 b (c / 4)
  let x2 := b.getD (9 * (c / 4) + 8) 0
  fieldSub gamma1Pow17
    (if c % 4 = 0 then x1 &&& 262143
     else if c % 4 = 1 then x1 >>> 18 &&& 262143
     else if c % 4 = 2 then x1 >>> 36 &&& 262143
     else (x1 >>> 54 ||| x2 <<< 10) &&& 262143)

/-- `polyInfinityNorm`: maximum of `infinityNorm` over the 256 coefficients. -/
def polyInfinityNorm (f : Nat → Nat) : Nat :=
  (List.range 256).foldl (fun mx i => max mx (infinityNorm (f i))) 0

/-- `vectorInfinityNorm`: maximum of `polyInfinityNorm` over a vector. -/
def vectorInfinityNorm (v : List (Nat → Nat)) : Nat :=
  v.foldl (fun mx f => max mx (polyInfinityNorm f)) 0

/-- `packW1_6`: 4 six-bit coefficients per 3-byte group. -/
def packW1_6 (f : Nat → Nat) : List Nat :=
  List.join ((List.range 64).map (fun g =>
    let x := f (4 * g) + f (4 * g + 1) * 2 ^ 6 + f (4 * g + 2) * 2 ^ 12 +
      f (4 * g + 3) * 2 ^ 18
    [x % 256, (x >>> 8) % 256, (x >>> 16) % 256]))

def zeroPoly : Nat → Nat := fun _ => 0

/-- The tail of `verifyInternal` after the z-norm and hint checks: sample the
challenge from cTilde (SHAKE over the 32-byte seed, modelled by `shake`),
recompute wApprox = invNTT(A ẑ − ĉ·t̂1·2^d), apply the hints, and compare the
SHAKE of `mu || packW1_6(w1)` with cTilde. `none` models the unbounded
rejection-sampling loop not terminating within `fuel`. -/
def verifyTail44 (shake : List Nat → Nat → Nat) (a : Nat → Nat → Nat)
    (tr : List Nat) (t1 : List (List Nat)) (fuel : Nat)
    (sig mPrime : List Nat) (hints : List (List Nat)) : Option Bool :=
  match sampleChallenge (shake (sig.take 32)) 39 fuel with
  | none => none
  | some c =>
      let mu := (List.range 64).map (shake (tr ++ mPrime))
      let cNTT := ntt (fun i => c.getD i 0)
      let zNTT : Nat → Nat → Nat := fun i =>
        ntt (unpackZ17Sig ((sig.drop (32 + 576 * i)).take 576))
      let t1NTT : Nat → Nat → Nat := fun i =>
        ntt (fun j => ((t1.getD i []).getD j 0 <<< 13) % 2 ^ 32)
      let w1 : Nat → Nat → Nat := fun i =>
        let acc := polySub
          (polyAdd (polyAdd (polyAdd (polyAdd zeroPoly
            (nttMul (a (4 * i)) (zNTT 0)))
            (nttMul (a (4 * i + 1)) (zNTT 1)))
            (nttMul (a (4 * i + 2)) (zNTT 2)))
            (nttMul (a (4 * i + 3)) (zNTT 3)))
          (nttMul cNTT (t1NTT i))
        fun j => useHint ((hints.getD i []).getD j 0) (invNTT acc j) gamma2QMinus1Div88
      let w1in := mu ++ packW1_6 (w1 0) ++ packW1_6 (w1 1) ++ packW1_6 (w1 2) ++
        packW1_6 (w1 3)
      some ((List.range 32).all (fun t => sig.getD t 0 == shake w1in t))

/-- `verifyInternal` (FIPS 204 Alg. 8) for ML-DSA-44: unpack the four z
polynomials from `sig[32:2336]`, reject if their norm reaches
`gamma1 − beta`, unpack the hints from `sig[2336:]` (reject on failure),
then run the tail. -/
def verifyInternal44 (shake : List Nat → Nat → Nat) (a : Nat → Nat → Nat)
    (tr : List Nat) (t1 : List (List Nat)) (fuel : Nat)
    (sig mPrime : List Nat) : Option Bool :=
  if gamma1Pow17 - beta44 ≤ vectorInfinityNorm
      [unpackZ17Sig ((sig.drop 32).take 576), unpackZ17Sig ((sig.drop 608).take 576),
        unpackZ17Sig ((sig.drop 1184).take 576), unpackZ17Sig ((sig.drop 1760).take 576)]
    then some false
  else
    match unpackHint (sig.drop 2336) 4 80 with
    | none => some false
    | some hints => verifyTail44 shake a tr t1 fuel sig mPrime hints

/-- `PublicKey44.Verify`: length and context checks, then
`verifyInternal(sig, 0 || len(ctx) || ctx || msg)`. -/
def Verify44 (shake : List Nat → Nat → Nat) (a : Nat → Nat → Nat)
    (tr : List Nat) (t1 : List (List Nat)) (fuel : Nat)
    (sig message context : List Nat) : Option Bool :=
  if sig.length ≠ 2420 then some false
  else if 255 < context.length then some false
  else verifyInternal44 shake a tr t1 fuel sig
    ([0, context.length % 256] ++ context ++ message)

/-- **C9.** ML-DSA-44 `Verify`: returns `false` whenever the signature length
differs from SignatureSize44 = 2420, or the context exceeds 255 bytes, or the
hint encoding `sig[2336:]` violates the rules (cumulative counts non-decreasing
and ≤ omega, positions strictly increasing per row, unused slots zero) — the
latter because `unpackHint` succeeds only on rule-abiding encodings.  `shake`
abstracts SHAKE256 and `a`, `tr`, `t1` are the public-key fields. -/
theorem claim_C9 (shake : List Nat → Nat → Nat) (a : Nat → Nat → Nat)
    (tr : List Nat) (t1 : List (List Nat)) (fuel : Nat)
    (sig message context : List Nat) :
    (sig.length ≠ 2420 →
      Verify44 shake a tr t1 fuel sig message context = some false) ∧
    (255 < context.length →
      Verify44 shake a tr t1 fuel sig message context = some false) ∧
    (¬ HintEncodingValid (sig.drop 2336) 4 80 →
      Verify44 shake a tr t1 fuel sig message context = some false) := by
  refine ⟨fun h => ?_, fun h => ?_, fun h => ?_⟩
  · unfold Verify44
    rw [if_pos h]
  · unfold Verify44
    by_cases hl : sig.length ≠ 2420
    · rw [if_pos hl]
    · rw [if_neg hl, if_pos h]
  · unfold Verify44
    by_cases hl : sig.length ≠ 2420
    · rw [if_pos hl]
    · rw [if_neg hl]
      by_cases hctx : 255 < context.length
      · rw [if_pos hctx]
      · rw [if_neg hctx]
        unfold verifyInternal44
        split
        · rfl
        · have hnone : unpackHint (sig.drop 2336) 4 80 = none := by
            cases hu : unpackHint (sig.drop 2336) 4 80 with
            | none => rfl
            | some hs => exact absurd (unpackHint_valid _ _ _ _ hu) h
          rw [hnone]

set_option maxRecDepth 400000 in
/-- Witness for C9: an empty signature (wrong length), a 256-byte context, and
a correct-length signature whose hint padding area has a stray nonzero byte. -/
theorem claim_C9_witness :
    ([] : List Nat).length ≠ 2420 ∧
    Verify44 (fun _ _ => 0) (fun _ _ => 0) [] [] 0 [] [] [] = some false ∧
    255 < (List.replicate 256 0).length ∧
    Verify44 (fun _ _ => 0) (fun _ _ => 0) [] [] 0 (List.replicate 2420 0) []
      (List.replicate 256 0) = some false ∧
    ¬ HintEncodingValid (((List.replicate 2420 0).set 2336 1).drop 2336) 4 80 ∧
    Verify44 (fun _ _ => 0) (fun _ _ => 0) [] [] 0
      ((List.replicate 2420 0).set 2336 1) [] [] = some false := by
  have hnv : ¬ HintEncodingValid (((List.replicate 2420 0).set 2336 1).drop 2336) 4 80 := by
    intro hv
    have := hv.2.2 0 (by decide) (by decide)
    exact absurd this (by decide)
  refine ⟨by decide, (claim_C9 (fun _ _ => 0) (fun _ _ => 0) [] [] 0 [] [] []).1 (by decide),
    by simp, (claim_C9 (fun _ _ => 0) (fun _ _ => 0) [] [] 0 (List.replicate 2420 0) []
      (List.replicate 256 0)).2.1 (by simp),
    hnv, (claim_C9 (fun _ _ => 0) (fun _ _ => 0) [] [] 0
      ((List.replicate 2420 0).set 2336 1) [] []).2.2 hnv⟩
